import Mathlib

/-!
# Verification of the wgpu-render-graph engine

Shallow embedding of `wgpu-render-graph/src/lib.rs` (the render-graph engine:
resource registry, dependency analysis, topological scheduling, lifetime-based
aliasing, store-op inference, dead-pass elimination, and the execute protocol),
together with theorems settling the specification claims.

Modelling conventions:
* `ResourceId` is `Nat` (the Rust `u32` ids are dense small integers; no claim
  depends on wrap-around).
* `wgpu` handle objects (`TextureView`, `Texture`, `Buffer`) are opaque `Nat`
  tokens; `device.create_*` is modelled by a fresh-token counter.
* `TextureFormat` / `TextureDimension` are opaque `Nat` codes; usage bitmasks
  (`TextureUsages`, `BufferUsages`) are `Nat` bitmasks with `contains` =
  bitwise inclusion, exactly as the `bitflags` crate implements them.
* Rust `HashMap`s are association lists with insert-overwrite semantics
  (`mapInsert` / `mapLookup`).  Every loop in the source that iterates a
  `HashMap` does so in a nondeterministic order; each such loop in the source
  computes an order-insensitive result (set membership / per-key insertions),
  so the fixed list order used here is observationally equivalent.
* The Rust `BinaryHeap<PoolHeapEntry>` is a min-heap on `lifetime_end` (its
  `Ord` is reversed); it is modelled as a list kept sorted by `lifetime_end`,
  pushes inserting after equal keys.  Ties on `lifetime_end` are popped by the
  Rust heap in an unspecified order; the theorems proved about the allocator
  do not depend on the tie order.
* Pass objects (`dyn PassNode`) are abstract: a `PassSpec` carries the data
  the engine queries (`name`, `reads`, `writes`, `reads_writes`,
  `is_enabled`), and the callbacks `invalidate_bind_groups` / `prepare` /
  `execute` are modelled as events recorded in a trace, which is exactly the
  engine-side observable the claims speak about.  Passes are modelled as
  returning no sub-graph-run commands and no errors (no claim involves
  sub-graphs or failing passes).
* Places where the source `unwrap()`s or indexes (panicking on absence) are
  modelled by skipping the absent entry; all theorems are stated in regions
  where the entry is present, matching the source's reachable behaviour.
-/

/-- `TextureUsages::contains`: every bit of `b` is set in `a` (bitflags). -/
def usageContains (a b : Nat) : Bool := Nat.land a b == b

/-- Bitwise union of usage masks (`|` on bitflags). -/
def usageUnion (a b : Nat) : Nat := Nat.lor a b

/-- `wgpu::StoreOp`. -/
inductive StoreOp
  | store
  | discard
deriving DecidableEq, Repr

/-- `RenderGraphTextureDescriptor` from the source. -/
structure RGTextureDescriptor where
  format : Nat
  width : Nat
  height : Nat
  usage : Nat
  sample_count : Nat
  mip_level_count : Nat
  dimension : Nat
  depth_or_array_layers : Nat
deriving DecidableEq, Repr

/-- `RenderGraphBufferDescriptor` from the source. -/
structure RGBufferDescriptor where
  size : Nat
  usage : Nat
  mapped_at_creation : Bool
deriving DecidableEq, Repr

/-- `ResourceType` from the source; clear colors/depths are opaque codes. -/
inductive ResourceType
  | externalColor (clear_color : Option Nat) (force_store : Bool)
  | transientColor (descriptor : RGTextureDescriptor) (clear_color : Option Nat)
  | externalDepth (clear_depth : Option Nat) (force_store : Bool)
  | transientDepth (descriptor : RGTextureDescriptor) (clear_depth : Option Nat)
  | externalBuffer
  | transientBuffer (descriptor : RGBufferDescriptor)
deriving DecidableEq, Repr

/-- `ResourceDescriptor` from the source. -/
structure ResourceDescriptor where
  name : String
  resource_type : ResourceType
  is_external : Bool
deriving DecidableEq, Repr

/-- `ResourceHandle` from the source; views/textures/buffers are tokens. -/
inductive ResourceHandle
  | externalTexture (view : Nat) (store_op : StoreOp)
  | transientTexture (texture : Nat) (view : Nat) (store_op : StoreOp)
  | externalBuffer (buffer : Nat)
  | transientBuffer (buffer : Nat)
deriving DecidableEq, Repr

/-- Association-list map with `HashMap::insert` overwrite semantics. -/
def mapInsert {κ α : Type} [DecidableEq κ] : List (κ × α) → κ → α → List (κ × α)
  | [], k, v => [(k, v)]
  | (k', v') :: rest, k, v =>
    if k' = k then (k, v) :: rest else (k', v') :: mapInsert rest k v

/-- Association-list map lookup (`HashMap::get`). -/
def mapLookup {κ α : Type} [DecidableEq κ] : List (κ × α) → κ → Option α
  | [], _ => none
  | (k', v') :: rest, k => if k' = k then some v' else mapLookup rest k

theorem mapLookup_insert {κ α : Type} [DecidableEq κ] (m : List (κ × α)) (k : κ) (v : α) :
    mapLookup (mapInsert m k v) k = some v := by
  induction m with
  | nil => simp [mapInsert, mapLookup]
  | cons p rest ih =>
    by_cases h : p.1 = k
    · simp [mapInsert, mapLookup, h]
    · simp [mapInsert, mapLookup, h, ih]

theorem mapLookup_insert_ne {κ α : Type} [DecidableEq κ] (m : List (κ × α)) (k k' : κ) (v : α)
    (h : k ≠ k') : mapLookup (mapInsert m k v) k' = mapLookup m k' := by
  induction m with
  | nil => simp [mapInsert, mapLookup, h]
  | cons p rest ih =>
    by_cases hp : p.1 = k
    · simp [mapInsert, mapLookup, hp, h]
    · simp only [mapInsert, if_neg hp]
      by_cases hp' : p.1 = k'
      · simp [mapLookup, hp']
      · simp [mapLookup, hp', ih]

theorem mapLookup_insert_isSome {κ α : Type} [DecidableEq κ] (m : List (κ × α)) (k k' : κ)
    (v : α) (h : (mapLookup m k').isSome) : (mapLookup (mapInsert m k v) k').isSome := by
  by_cases hk : k = k'
  · subst hk; simp [mapLookup_insert]
  · rwa [mapLookup_insert_ne m k k' v hk]

/-- `RenderGraphResources` from the source. -/
structure RenderGraphResources where
  descriptors : List (Nat × ResourceDescriptor)
  handles : List (Nat × ResourceHandle)
  versions : List (Nat × Nat)
  next_id : Nat
deriving DecidableEq, Repr

namespace RenderGraphResources

/-- `RenderGraphResources::new`. -/
def new : RenderGraphResources := ⟨[], [], [], 0⟩

/-- `get_version`: `*self.versions.get(&id).unwrap_or(&0)`.  Total. -/
def get_version (s : RenderGraphResources) (id : Nat) : Nat :=
  (mapLookup s.versions id).getD 0

/-- `increment_version`: `entry(id).or_insert(0); *version += 1`. -/
def increment_version (s : RenderGraphResources) (id : Nat) : RenderGraphResources :=
  { s with versions := mapInsert s.versions id ((mapLookup s.versions id).getD 0 + 1) }

/-- `register_external_resource`. -/
def register_external_resource (s : RenderGraphResources) (name : String)
    (resource_type : ResourceType) : RenderGraphResources × Nat :=
  let id := s.next_id
  ({ s with
      descriptors := mapInsert s.descriptors id ⟨name, resource_type, true⟩
      next_id := s.next_id + 1 }, id)

/-- `register_transient_resource`. -/
def register_transient_resource (s : RenderGraphResources) (name : String)
    (resource_type : ResourceType) : RenderGraphResources × Nat :=
  let id := s.next_id
  ({ s with
      descriptors := mapInsert s.descriptors id ⟨name, resource_type, false⟩
      next_id := s.next_id + 1 }, id)

/-- `set_external_texture`: inserts an `ExternalTexture` handle with
`StoreOp::Store`.  Note: the source does not touch `versions` here. -/
def set_external_texture (s : RenderGraphResources) (id : Nat) (view : Nat) :
    RenderGraphResources :=
  { s with handles := mapInsert s.handles id (.externalTexture view .store) }

/-- `set_external_buffer`.  Note: the source does not touch `versions` here. -/
def set_external_buffer (s : RenderGraphResources) (id : Nat) (buffer : Nat) :
    RenderGraphResources :=
  { s with handles := mapInsert s.handles id (.externalBuffer buffer) }

/-- `get_handle`. -/
def get_handle (s : RenderGraphResources) (id : Nat) : Option ResourceHandle :=
  mapLookup s.handles id

/-- `get_descriptor`. -/
def get_descriptor (s : RenderGraphResources) (id : Nat) : Option ResourceDescriptor :=
  mapLookup s.descriptors id

end RenderGraphResources

/-! ## Lifetimes, pool slots and the aliasing allocator (§ lifetime allocator) -/

/-- `ResourceLifetime` from the source. -/
structure ResourceLifetime where
  resource_id : Nat
  first_use : Nat
  last_use : Nat
deriving DecidableEq, Repr

/-- `PooledResource`; physical objects are tokens. -/
inductive PooledResource
  | texture (texture : Nat)
  | buffer (buffer : Nat)
deriving DecidableEq, Repr

/-- `PoolDescriptorInfo`. -/
inductive PoolDescriptorInfo
  | texture (d : RGTextureDescriptor)
  | buffer (d : RGBufferDescriptor)
deriving DecidableEq, Repr

/-- `PoolSlot`. -/
structure PoolSlot where
  resource : Option PooledResource
  descriptor_info : Option PoolDescriptorInfo
  lifetime_end : Nat
deriving DecidableEq, Repr

/-- `PoolHeapEntry`. -/
structure PoolHeapEntry where
  pool_index : Nat
  lifetime_end : Nat
  descriptor_info : PoolDescriptorInfo
deriving DecidableEq, Repr

/-- `ResourceAliasingInfo`. -/
structure ResourceAliasingInfo where
  aliases : List (Nat × Nat)
  pools : List PoolSlot
deriving DecidableEq, Repr

/-- `RenderGraph::can_alias_textures`. -/
def canAliasTextures (d1 d2 : RGTextureDescriptor) : Bool :=
  d1.format == d2.format && d1.width == d2.width && d1.height == d2.height &&
  d1.sample_count == d2.sample_count && d1.mip_level_count == d2.mip_level_count &&
  usageContains d1.usage d2.usage

/-- `RenderGraph::can_alias_buffers`. -/
def canAliasBuffers (d1 d2 : RGBufferDescriptor) : Bool :=
  d2.size ≤ d1.size && d1.usage == d2.usage

/-- The `can_reuse` match inside `compute_resource_aliasing`. -/
def canReuse (cand : PoolDescriptorInfo) (rt : ResourceType) : Bool :=
  match cand, rt with
  | .texture pd, .transientColor rd _ => canAliasTextures pd rd
  | .texture pd, .transientDepth rd _ => canAliasTextures pd rd
  | .buffer pd, .transientBuffer rd => canAliasBuffers pd rd
  | _, _ => false

/-- The `needs_new_resource` match inside `compute_resource_aliasing`: widen a
texture slot's usage to the union when it does not contain the requester's
usage, or grow a buffer slot to the requested descriptor.  Returns the
(possibly updated) descriptor info and whether the physical resource must be
recreated. -/
def widenSlot (cand : PoolDescriptorInfo) (rt : ResourceType) : PoolDescriptorInfo × Bool :=
  match cand, rt with
  | .texture pd, .transientColor rd _ =>
    if usageContains pd.usage rd.usage then (.texture pd, false)
    else (.texture { pd with usage := usageUnion pd.usage rd.usage }, true)
  | .texture pd, .transientDepth rd _ =>
    if usageContains pd.usage rd.usage then (.texture pd, false)
    else (.texture { pd with usage := usageUnion pd.usage rd.usage }, true)
  | .buffer pd, .transientBuffer rd =>
    if pd.size < rd.size then (.buffer rd, true) else (.buffer pd, false)
  | c, _ => (c, false)

/-- The candidate scan (`for candidate in reused_candidates.iter_mut()` with
`break` on the first reusable candidate).  Returns the chosen slot's index,
updated descriptor info and recreate flag (if any candidate was reusable),
and the candidate list with the chosen entry updated in place. -/
def scanCandidates (rt : ResourceType) (lastUse : Nat) :
    List PoolHeapEntry → Option (Nat × PoolDescriptorInfo × Bool) × List PoolHeapEntry
  | [] => (none, [])
  | c :: cs =>
    if canReuse c.descriptor_info rt then
      let w := widenSlot c.descriptor_info rt
      (some (c.pool_index, w.1, w.2),
        { c with lifetime_end := lastUse, descriptor_info := w.1 } :: cs)
    else
      let r := scanCandidates rt lastUse cs
      (r.1, c :: r.2)

/-- `BinaryHeap::push` on the min-heap ordered by `lifetime_end` (the source's
`Ord` on `PoolHeapEntry` is reversed), modelled as ordered insertion. -/
def heapPush (e : PoolHeapEntry) : List PoolHeapEntry → List PoolHeapEntry
  | [] => [e]
  | x :: xs => if e.lifetime_end < x.lifetime_end then e :: x :: xs else x :: heapPush e xs

/-- State threaded through the `for lifetime in lifetimes` loop of
`compute_resource_aliasing`: the accumulator plus the `available_pools` heap. -/
structure AliasState where
  aliases : List (Nat × Nat)
  pools : List PoolSlot
  heap : List PoolHeapEntry
deriving DecidableEq, Repr

/-- One iteration of the `for lifetime in lifetimes` loop of
`compute_resource_aliasing`.  The source `unwrap`s the descriptor (lifetimes
only carry registered ids); a missing descriptor is modelled as a skip. -/
def aliasStep (descs : List (Nat × ResourceDescriptor)) (st : AliasState)
    (lt : ResourceLifetime) : AliasState :=
  match mapLookup descs lt.resource_id with
  | none => st
  | some descriptor =>
    let cands := st.heap.takeWhile (fun e => e.lifetime_end < lt.first_use)
    let rest := st.heap.dropWhile (fun e => e.lifetime_end < lt.first_use)
    let sc := scanCandidates descriptor.resource_type lt.last_use cands
    let heap' := sc.2.foldl (fun h c => heapPush c h) rest
    match sc.1 with
    | some kdi =>
      let pools' :=
        match st.pools.get? kdi.1 with
        | some slot =>
          st.pools.set kdi.1
            { resource := if kdi.2.2 then none else slot.resource
              descriptor_info := some kdi.2.1
              lifetime_end := lt.last_use }
        | none => st.pools
      { aliases := mapInsert st.aliases lt.resource_id kdi.1
        pools := pools'
        heap := heap' }
    | none =>
      let newSlot := fun (di : PoolDescriptorInfo) =>
        let k := st.pools.length
        { aliases := mapInsert st.aliases lt.resource_id k
          pools := st.pools ++ [{ resource := none, descriptor_info := some di,
                                  lifetime_end := lt.last_use }]
          heap := heapPush ⟨k, lt.last_use, di⟩ heap' : AliasState }
      match descriptor.resource_type with
      | .transientColor td _ => newSlot (.texture td)
      | .transientDepth td _ => newSlot (.texture td)
      | .transientBuffer bd => newSlot (.buffer bd)
      | _ => { st with heap := heap' }

/-- Stable insertion into a list sorted by `first_use` (ties keep earlier
elements first), used to model `lifetimes.sort_by_key(|lt| lt.first_use)`. -/
def insertByFirstUse (lt : ResourceLifetime) : List ResourceLifetime → List ResourceLifetime
  | [] => [lt]
  | x :: xs =>
    if lt.first_use < x.first_use then lt :: x :: xs else x :: insertByFirstUse lt xs

/-- `lifetimes.sort_by_key(|lt| lt.first_use)` (stable). -/
def sortByFirstUse (l : List ResourceLifetime) : List ResourceLifetime :=
  l.foldl (fun acc x => insertByFirstUse x acc) []

/-- `RenderGraph::compute_resource_aliasing` (the greedy interval allocator). -/
def computeResourceAliasing (descs : List (Nat × ResourceDescriptor))
    (lifetimes : List ResourceLifetime) : ResourceAliasingInfo :=
  let st := (sortByFirstUse lifetimes).foldl (aliasStep descs) ⟨[], [], []⟩
  ⟨st.aliases, st.pools⟩

/-! ## Graph state, pass registration and dependency analysis -/

/-- `RenderGraphError` (variants needed by the engine paths modelled here;
string/id payloads kept, matching the source's structurally diagnostic
errors). -/
inductive RenderGraphError
  | slotNotFound (slot : String) (pass : String)
  | resourceNotBound (resource : String) (id : Nat)
  | descriptorNotFound (resource : String) (id : Nat)
  | typeMismatch (operation actual_type resource : String)
  | slotNotMapped (pass : String) (slot : String)
  | cannotResizeExternal (resource : String)
  | cannotResizeBuffer (resource : String)
  | cannotResizeNonTransient (resource : String)
  | cyclicDependency
  | subGraphNotFound (sub_graph : String)
  | resourceNotFound (resource : String) (id : Nat)
deriving DecidableEq, Repr

/-- The data the engine queries from a `dyn PassNode` object.  `enabled`
models `is_enabled(config)` at the configuration `execute` is called with. -/
structure PassSpec where
  name : String
  readSlots : List String
  writeSlots : List String
  readWriteSlots : List String
  enabled : Bool
deriving DecidableEq, Repr

/-- `GraphNode`: a vertex with resolved resource ids plus the pass object. -/
structure GraphNode where
  name : String
  reads : List Nat
  writes : List Nat
  reads_writes : List Nat
  pass : PassSpec
deriving DecidableEq, Repr

/-- `RenderGraph` state.  `nodes` is the petgraph vertex list (a `NodeIndex`
is a position in it); `edges` are `(from, to, resource)` triples.  Sub-graph
tables are omitted (no claim involves sub-graphs; the modelled passes request
no sub-graph runs, so `execute_serial` never touches them). -/
structure RenderGraphState where
  nodes : List GraphNode
  edges : List (Nat × Nat × Nat)
  pass_nodes : List (String × Nat)
  pass_resource_mappings : List (String × List (String × Nat))
  resources : RenderGraphResources
  execution_order : List Nat
  store_ops : List (Nat × StoreOp)
  aliasing_info : Option ResourceAliasingInfo
  needs_recompile : Bool
  needs_resource_reallocation : Bool
  culled_passes : List Nat
  resource_versions : List (Nat × Nat)
deriving DecidableEq, Repr

namespace RenderGraphState

/-- `RenderGraph::new`. -/
def new : RenderGraphState :=
  { nodes := [], edges := [], pass_nodes := [], pass_resource_mappings := []
    resources := RenderGraphResources.new, execution_order := [], store_ops := []
    aliasing_info := none, needs_recompile := true
    needs_resource_reallocation := false, culled_passes := []
    resource_versions := [] }

end RenderGraphState

/-- Resolve a list of declared slot names through the mapping table, failing
with `SlotNotMapped` on the first missing one (the `collect::<Result<_>>()`
in `add_pass`). -/
def resolveSlots (passName : String) (mappings : List (String × Nat)) :
    List String → Except RenderGraphError (List Nat)
  | [] => .ok []
  | s :: rest =>
    match mapLookup mappings s with
    | none => .error (.slotNotMapped passName s)
    | some id =>
      match resolveSlots passName mappings rest with
      | .error e => .error e
      | .ok r => .ok (id :: r)

/-- `RenderGraph::add_pass`. -/
def addPass (g : RenderGraphState) (pass : PassSpec)
    (slot_mappings : List (String × Nat)) :
    Except RenderGraphError (RenderGraphState × Nat) :=
  let name := pass.name
  let mappings := slot_mappings.foldl (fun m p => mapInsert m p.1 p.2) []
  match resolveSlots name mappings pass.readSlots with
  | .error e => .error e
  | .ok reads =>
    match resolveSlots name mappings pass.writeSlots with
    | .error e => .error e
    | .ok writes =>
      match resolveSlots name mappings pass.readWriteSlots with
      | .error e => .error e
      | .ok reads_writes =>
        let node : GraphNode := ⟨name, reads, writes, reads_writes, pass⟩
        let index := g.nodes.length
        .ok ({ g with
                nodes := g.nodes ++ [node]
                pass_nodes := mapInsert g.pass_nodes name index
                pass_resource_mappings := mapInsert g.pass_resource_mappings name mappings
                needs_recompile := true }, index)

/-- `petgraph::Graph::contains_edge`. -/
def containsEdge (edges : List (Nat × Nat × Nat)) (a b : Nat) : Bool :=
  edges.any (fun e => e.1 == a && e.2.1 == b)

/-- The body of `build_dependency_edges`'s per-node iteration: threading the
`resource_writers` map and the `edges_to_add` accumulator.  `existing` is the
graph's current edge set (the `contains_edge` dedup check consults it, not
`edges_to_add`, exactly as in the source). -/
def edgeStep (existing : List (Nat × Nat × Nat))
    (acc : List (Nat × Nat) × List (Nat × Nat × Nat)) (p : Nat × GraphNode) :
    List (Nat × Nat) × List (Nat × Nat × Nat) :=
  let writers := acc.1
  let toAdd1 := p.2.reads.foldl (fun ta r =>
    match mapLookup writers r with
    | some w => if containsEdge existing w p.1 then ta else ta ++ [(w, p.1, r)]
    | none => ta) acc.2
  let toAdd2 := p.2.reads_writes.foldl (fun ta r =>
    match mapLookup writers r with
    | some w => if containsEdge existing w p.1 then ta else ta ++ [(w, p.1, r)]
    | none => ta) toAdd1
  let writers1 := p.2.writes.foldl (fun m r => mapInsert m r p.1) writers
  let writers2 := p.2.reads_writes.foldl (fun m r => mapInsert m r p.1) writers1
  (writers2, toAdd2)

/-- `RenderGraph::build_dependency_edges`. -/
def buildDependencyEdges (g : RenderGraphState) : RenderGraphState :=
  let step := edgeStep g.edges
  let acc := g.nodes.enum.foldl step ([], [])
  { g with edges := g.edges ++ acc.2 }

/-- One Kahn step: the smallest node that is unprocessed and has no
unprocessed predecessor.  (`petgraph::algo::toposort` produces *a*
topological order; the theorems below either hold for every topological
order or are evaluated on graphs whose topological order is unique, so this
deterministic choice is observationally faithful.) -/
def topoFind (n : Nat) (edges : List (Nat × Nat × Nat)) (done : List Nat) : Option Nat :=
  (List.range n).find? (fun i =>
    !done.contains i && !(edges.any (fun e => e.2.1 == i && !done.contains e.1)))

def topoSortAux (edges : List (Nat × Nat × Nat)) (n : Nat) :
    Nat → List Nat → Option (List Nat)
  | 0, acc => if acc.length = n then some acc.reverse else none
  | fuel + 1, acc =>
    match topoFind n edges acc with
    | none => if acc.length = n then some acc.reverse else none
    | some i => topoSortAux edges n fuel (i :: acc)

/-- `petgraph::algo::toposort`: `none` on a cycle. -/
def topoSort (n : Nat) (edges : List (Nat × Nat × Nat)) : Option (List Nat) :=
  topoSortAux edges n n []

/-! ## Lifetimes, store ops, dead passes, compile -/

/-- The per-node body of `compute_resource_lifetimes` (writes use `or_insert`
only; reads and read-writes additionally set `last_use`). -/
def lifetimeStep (nodes : List GraphNode) (m : List (Nat × ResourceLifetime))
    (p : Nat × Nat) : List (Nat × ResourceLifetime) :=
  match nodes.get? p.2 with
  | none => m
  | some node =>
    let m1 := node.writes.foldl (fun m r =>
      match mapLookup m r with
      | some _ => m
      | none => mapInsert m r ⟨r, p.1, p.1⟩) m
    let m2 := node.reads.foldl (fun m r =>
      match mapLookup m r with
      | some lt => mapInsert m r { lt with last_use := p.1 }
      | none => mapInsert m r ⟨r, p.1, p.1⟩) m1
    node.reads_writes.foldl (fun m r =>
      match mapLookup m r with
      | some lt => mapInsert m r { lt with last_use := p.1 }
      | none => mapInsert m r ⟨r, p.1, p.1⟩) m2

/-- `RenderGraph::compute_resource_lifetimes`: per-resource
`(first_use, last_use)` over the execution order, keeping only registered
non-external resources.  (The Rust `HashMap::into_iter` order is
unspecified; the retained first-insertion order is one admissible order, and
everything computed downstream from the result is order-insensitive.) -/
def computeResourceLifetimes (g : RenderGraphState) (order : List Nat) :
    List ResourceLifetime :=
  let m := order.enum.foldl (lifetimeStep g.nodes) []
  (m.filter (fun p =>
    match mapLookup g.resources.descriptors p.1 with
    | some d => !d.is_external
    | none => false)).map (·.2)

/-- One step of the `last_read` construction (per enumerated pass, record the
index for each read/read-write resource with `or_insert`). -/
def lastReadStep (nodes : List GraphNode) (m : List (Nat × Nat)) (p : Nat × Nat) :
    List (Nat × Nat) :=
  match nodes.get? p.2 with
  | none => m
  | some node =>
    (node.reads ++ node.reads_writes).foldl (fun m r =>
      match mapLookup m r with
      | some _ => m
      | none => mapInsert m r p.1) m

/-- `last_read` construction in `compute_store_ops`: iterate the enumerated
order in reverse with `or_insert`, so each resource keeps the largest index
that reads or read-writes it. -/
def computeLastRead (nodes : List GraphNode) (order : List Nat) : List (Nat × Nat) :=
  (order.enum.reverse).foldl (lastReadStep nodes) []

/-- The same construction as a right fold over the forward enumeration. -/
def lastReadFoldr (nodes : List GraphNode) (pairs : List (Nat × Nat)) :
    List (Nat × Nat) :=
  pairs.foldr (fun p m => lastReadStep nodes m p) []

/-- `last_read.get(&id).is_some_and(|&last| last > index)`. -/
def readLaterB (lastRead : List (Nat × Nat)) (i r : Nat) : Bool :=
  match mapLookup lastRead r with
  | some l => decide (i < l)
  | none => false

/-- The store-op choice of `compute_store_ops` for one written resource at
one writer index, refactored verbatim from the source's match. -/
def storeOpFor (lastRead : List (Nat × Nat)) (i r : Nat) (d : ResourceDescriptor) :
    StoreOp :=
  if d.is_external then
    match d.resource_type with
    | .externalColor _ fs =>
      if fs then .store else if readLaterB lastRead i r then .store else .discard
    | .externalDepth _ fs =>
      if fs then .store else if readLaterB lastRead i r then .store else .discard
    | _ => .store
  else if readLaterB lastRead i r then .store else .discard

/-- The writer loop of `compute_store_ops` (descriptor `unwrap` modelled as a
skip; unreachable when every written resource is registered). -/
def storeOpsLoop (descs : List (Nat × ResourceDescriptor)) (nodes : List GraphNode)
    (lastRead : List (Nat × Nat)) (m0 : List (Nat × StoreOp)) (pairs : List (Nat × Nat)) :
    List (Nat × StoreOp) :=
  pairs.foldl (fun m p =>
    match nodes.get? p.2 with
    | none => m
    | some node =>
      (node.writes ++ node.reads_writes).foldl (fun m r =>
        match mapLookup descs r with
        | none => m
        | some d => mapInsert m r (storeOpFor lastRead p.1 r d)) m) m0

/-- The trailing default-fill loop of `compute_store_ops` (`or_insert_with`
over every registered resource). -/
def storeOpsDefaults (descs : List (Nat × ResourceDescriptor))
    (m0 : List (Nat × StoreOp)) : List (Nat × StoreOp) :=
  descs.foldl (fun m p =>
    match mapLookup m p.1 with
    | some _ => m
    | none =>
      let v :=
        if p.2.is_external then
          match p.2.resource_type with
          | .externalColor _ fs => if fs then StoreOp.store else .discard
          | .externalDepth _ fs => if fs then StoreOp.store else .discard
          | _ => StoreOp.store
        else StoreOp.discard
      mapInsert m p.1 v) m0

/-- `RenderGraph::compute_store_ops`. -/
def computeStoreOps (g : RenderGraphState) (order : List Nat) : List (Nat × StoreOp) :=
  let lastRead := computeLastRead g.nodes order
  storeOpsDefaults g.resources.descriptors
    (storeOpsLoop g.resources.descriptors g.nodes lastRead [] order.enum)

/-- The initial required-resource set of `compute_dead_passes`: every
registered external resource. -/
def externalIds (descs : List (Nat × ResourceDescriptor)) : List Nat :=
  (descs.filter (fun p => p.2.is_external)).map (·.1)

/-- One reverse-walk step of `compute_dead_passes`, threading
`(required_resources, required_passes)`. -/
def deadStep (nodes : List GraphNode) (acc : List Nat × List Nat) (ni : Nat) :
    List Nat × List Nat :=
  match nodes.get? ni with
  | none => acc
  | some node =>
    let hasSideEffects := node.writes.isEmpty && node.reads_writes.isEmpty
    let writesRequired := node.writes.any (acc.1.contains ·) ||
      node.reads_writes.any (acc.1.contains ·)
    if writesRequired || hasSideEffects then
      (acc.1 ++ node.reads ++ node.reads_writes, acc.2 ++ [ni])
    else acc

/-- `RenderGraph::compute_dead_passes`: walk the execution order in reverse
accumulating required passes; the culled set is the complement. -/
def computeDeadPasses (g : RenderGraphState) (order : List Nat) : List Nat :=
  let acc := order.reverse.foldl (deadStep g.nodes) (externalIds g.resources.descriptors, [])
  order.filter (fun ni => !acc.2.contains ni)

/-- `RenderGraph::compile`. -/
def compile (g : RenderGraphState) : Except RenderGraphError RenderGraphState :=
  let g1 := buildDependencyEdges g
  match topoSort g1.nodes.length g1.edges with
  | none => .error .cyclicDependency
  | some order =>
    let store_ops := computeStoreOps g1 order
    let lifetimes := computeResourceLifetimes g1 order
    let ai := computeResourceAliasing g1.resources.descriptors lifetimes
    let culled := computeDeadPasses g1 order
    .ok { g1 with
            execution_order := order, store_ops := store_ops
            aliasing_info := some ai, culled_passes := culled
            needs_recompile := false }

/-! ## The execute protocol -/

/-- Engine-to-pass callbacks, recorded as trace events.  Each event carries
the `NodeIndex` of the pass object it is delivered to; `exec` additionally
carries the `slot_mappings` table handed to the `PassExecutionContext`. -/
inductive PassEvent
  | invalidate (node : Nat)
  | prepare (node : Nat)
  | exec (node : Nat) (slot_mappings : List (String × Nat))
deriving DecidableEq, Repr

/-- Step 1 of `allocate_transient_resources_with_aliasing`: create a physical
resource (fresh token) for every pool slot that has a descriptor but no
resource yet. -/
def materializePools (counter : Nat) (pools : List PoolSlot) : Nat × List PoolSlot :=
  pools.foldl (fun acc slot =>
    match slot.resource, slot.descriptor_info with
    | none, some di =>
      let res := match di with
        | .texture _ => PooledResource.texture acc.1
        | .buffer _ => PooledResource.buffer acc.1
      (acc.1 + 1, acc.2 ++ [{ slot with resource := some res }])
    | _, _ => (acc.1, acc.2 ++ [slot])) (counter, [])

/-- Steps 2–3 of `allocate_transient_resources_with_aliasing`: for every
registered non-external resource without a handle, clone the pool slot's
physical resource into a transient handle (texture view tokens are fresh)
and record it; afterwards bump the version of every freshly bound id. -/
def bindTransients (counter : Nat) (s : RenderGraphResources)
    (store_ops : List (Nat × StoreOp)) (ai : ResourceAliasingInfo) :
    Nat × RenderGraphResources :=
  let step := fun (acc : Nat × RenderGraphResources) (p : Nat × ResourceDescriptor) =>
    if p.2.is_external || (mapLookup acc.2.handles p.1).isSome then acc
    else
      match mapLookup ai.aliases p.1 with
      | none => acc
      | some pi =>
        match ai.pools.get? pi with
        | none => acc
        | some slot =>
          match slot.resource with
          | some (.texture tex) =>
            let store_op := (mapLookup store_ops p.1).getD .store
            (acc.1 + 1,
              (RenderGraphResources.increment_version
                { acc.2 with handles :=
                    mapInsert acc.2.handles p.1 (.transientTexture tex acc.1 store_op) } p.1))
          | some (.buffer buf) =>
            (acc.1,
              (RenderGraphResources.increment_version
                { acc.2 with handles :=
                    mapInsert acc.2.handles p.1 (.transientBuffer buf) } p.1))
          | none => acc
  s.descriptors.foldl step (counter, s)

/-- `RenderGraphResources::allocate_transient_resources_with_aliasing`,
threading the fresh-token counter that stands in for `device`. -/
def allocateTransients (counter : Nat) (s : RenderGraphResources)
    (store_ops : List (Nat × StoreOp)) (ai : ResourceAliasingInfo) :
    Nat × RenderGraphResources × ResourceAliasingInfo :=
  let mp := materializePools counter ai.pools
  let ai' : ResourceAliasingInfo := ⟨ai.aliases, mp.2⟩
  let bt := bindTransients mp.1 s store_ops ai'
  (bt.1, bt.2, ai')

/-- The version-diff scan of `invalidate_bind_groups_for_changed_resources`:
ids whose current version differs from the engine's recorded one. -/
def dirtyResources (g : RenderGraphState) : List Nat :=
  g.resources.descriptors.filterMap (fun p =>
    let current := g.resources.get_version p.1
    let stored := (mapLookup g.resource_versions p.1).getD 0
    if current ≠ stored then some p.1 else none)

/-- `RenderGraph::invalidate_bind_groups_for_changed_resources`: update the
recorded versions of dirty ids, then deliver `invalidate_bind_groups` once to
every pass referencing a dirty resource.  (The source collects the passes in
a `HashSet`; the execution order contains each vertex once, so the per-pass
"at most once" is preserved by this filter.) -/
def invalidateStep (g : RenderGraphState) : RenderGraphState × List PassEvent :=
  let dirty := dirtyResources g
  let rv := dirty.foldl (fun rv id => mapInsert rv id (g.resources.get_version id))
    g.resource_versions
  let g' := { g with resource_versions := rv }
  if dirty.isEmpty then (g', [])
  else
    let toInv := g'.execution_order.filter (fun ni =>
      match g'.nodes.get? ni with
      | some node =>
        (node.reads ++ node.writes ++ node.reads_writes).any (dirty.contains ·)
      | none => false)
    (g', toInv.map .invalidate)

/-- The `prepare` loop of `execute`: every non-culled, enabled pass in
execution order. -/
def prepareEvents (g : RenderGraphState) : List PassEvent :=
  g.execution_order.filterMap (fun ni =>
    if g.culled_passes.contains ni then none
    else
      match g.nodes.get? ni with
      | some node => if node.pass.enabled then some (.prepare ni) else none
      | none => none)

/-- `RenderGraph::execute_serial` over a (suffix of the) execution order.
The modelled passes return no sub-graph commands and no errors, so the only
engine-side failure is the `pass_resource_mappings` lookup. -/
def executeSerialAux (g : RenderGraphState) :
    List Nat → Except RenderGraphError (List PassEvent)
  | [] => .ok []
  | ni :: rest =>
    if g.culled_passes.contains ni then executeSerialAux g rest
    else
      match g.nodes.get? ni with
      | none => executeSerialAux g rest
      | some node =>
        if !node.pass.enabled then executeSerialAux g rest
        else
          match mapLookup g.pass_resource_mappings node.name with
          | none => .error (.resourceNotFound ("pass_" ++ node.name ++ "_mappings") 0)
          | some m =>
            match executeSerialAux g rest with
            | .error e => .error e
            | .ok evs => .ok (.exec ni m :: evs)

def executeSerial (g : RenderGraphState) : Except RenderGraphError (List PassEvent) :=
  executeSerialAux g g.execution_order

/-- `RenderGraph::recompile_if_needed`.  Note the early return: when only
reallocation is pending, lifetimes and aliasing are recomputed over the
*existing* execution order and nothing else is refreshed. -/
def recompileIfNeeded (g : RenderGraphState) : Except RenderGraphError RenderGraphState :=
  if g.needs_resource_reallocation then
    let lifetimes := computeResourceLifetimes g g.execution_order
    .ok { g with
            aliasing_info := some (computeResourceAliasing g.resources.descriptors lifetimes)
            needs_resource_reallocation := false }
  else if !g.needs_recompile then .ok g
  else compile { g with edges := [] }

/-- `RenderGraph::execute`: recompile if needed, seed aliasing if absent,
allocate transients, deliver invalidations, deliver prepares, then record the
passes serially.  Returns the final state, the fresh-token counter and the
full callback trace (invalidate calls first, then prepares, then executes —
exactly the source's statement order). -/
def executeModel (g : RenderGraphState) (device : Nat) :
    Except RenderGraphError (RenderGraphState × Nat × List PassEvent) :=
  match recompileIfNeeded g with
  | .error e => .error e
  | .ok g1 =>
    let g2 :=
      if g1.aliasing_info.isNone then
        { g1 with aliasing_info := some (computeResourceAliasing
            g1.resources.descriptors (computeResourceLifetimes g1 g1.execution_order)) }
      else g1
    let g3d :=
      match g2.aliasing_info with
      | some ai =>
        let r := allocateTransients device g2.resources g2.store_ops ai
        ({ g2 with resources := r.2.1, aliasing_info := some r.2.2 }, r.1)
      | none => (g2, device)
    let inv := invalidateStep g3d.1
    let prep := prepareEvents inv.1
    match executeSerial inv.1 with
    | .error e => .error e
    | .ok execs => .ok (inv.1, g3d.2, inv.2 ++ prep ++ execs)

/-! ## Concrete scenario infrastructure -/

/-- `wgpu::TextureUsages` bit values (bitflags as in wgpu). -/
def COPY_SRC : Nat := 1
def COPY_DST : Nat := 2
def TEXTURE_BINDING : Nat := 4
def STORAGE_BINDING : Nat := 8
def RENDER_ATTACHMENT : Nat := 16

/-- Opaque format codes. -/
def fmtRgba8UnormSrgb : Nat := 0
def fmtDepth32Float : Nat := 1

/-- The default texture descriptor of `add_color_texture`. -/
def defaultColorDesc : RGTextureDescriptor :=
  ⟨fmtRgba8UnormSrgb, 1, 1, RENDER_ATTACHMENT + TEXTURE_BINDING, 1, 1, 2, 1⟩

def exceptStateD (e : Except RenderGraphError (RenderGraphState × Nat × List PassEvent)) :
    RenderGraphState :=
  match e with
  | .ok r => r.1
  | .error _ => RenderGraphState.new

def exceptTraceD (e : Except RenderGraphError (RenderGraphState × Nat × List PassEvent)) :
    List PassEvent :=
  match e with
  | .ok r => r.2.2
  | .error _ => []

def exceptGraphD (e : Except RenderGraphError (RenderGraphState × Nat)) : RenderGraphState :=
  match e with
  | .ok r => r.1
  | .error _ => RenderGraphState.new

def countInvalidate (evs : List PassEvent) (ni : Nat) : Nat :=
  (evs.filter (fun e => e == PassEvent.invalidate ni)).length

/-! ## C10: `get_version` is total and defaults to 0 -/

/-- **C10** — `get_version` is total (it is a function into `Nat`, never an
error) and returns 0 both for ids absent from the version table (never
allocated or rebound — the table only gains entries through
`increment_version`) and for freshly registered ids (registration does not
touch the version table). -/
theorem claim_C10_get_version_total_zero (s : RenderGraphResources) (id : Nat)
    (h : mapLookup s.versions id = none) :
    s.get_version id = 0 ∧
    (∀ name rt, ((s.register_external_resource name rt).1).versions = s.versions) ∧
    (∀ name rt, ((s.register_transient_resource name rt).1).versions = s.versions) := by
  refine ⟨?_, fun name rt => rfl, fun name rt => rfl⟩
  simp [RenderGraphResources.get_version, h]

/-- Witness for C10: a registered-but-never-allocated id and a never
registered id both report version 0. -/
theorem claim_C10_witness :
    mapLookup (RenderGraphResources.new.register_external_resource "surface"
        (.externalColor none true)).1.versions 0 = none ∧
    ((RenderGraphResources.new.register_external_resource "surface"
        (.externalColor none true)).1.get_version 0 = 0) ∧
    RenderGraphResources.new.get_version 57 = 0 := by
  refine ⟨by decide, ?_, ?_⟩
  · exact (claim_C10_get_version_total_zero _ 0 (by decide)).1
  · exact (claim_C10_get_version_total_zero RenderGraphResources.new 57 (by decide)).1

/-! ## C2: external rebinds do *not* bump the version counter -/

/-- **C2 counterexample** — the claim says `set_external_texture` /
`set_external_buffer` strictly increase `get_version(id)`.  On the code they
do not: `set_external_texture` only replaces the handle (`lib.rs` lines
228–236 contain no `increment_version` call).  Concretely, registering
external id 0 and binding a view leaves `get_version 0` at 0. -/
theorem claim_C2_counterexample :
    ((RenderGraphResources.new.register_external_resource "surface"
        (.externalColor none true)).1.set_external_texture 0 77).get_version 0 = 0 ∧
    ¬ ((RenderGraphResources.new.register_external_resource "surface"
        (.externalColor none true)).1.get_version 0 <
       ((RenderGraphResources.new.register_external_resource "surface"
        (.externalColor none true)).1.set_external_texture 0 77).get_version 0) := by
  constructor
  · rfl
  · decide

/-- **C2 (corrected)** — `set_external_texture` and `set_external_buffer`
leave the whole version table, and hence `get_version` of every id,
unchanged.  (Versions are bumped only by `increment_version`, which only
`allocate_transient_resources_with_aliasing` calls for freshly bound
transients.) -/
theorem claim_C2_amended_rebind_preserves_version (s : RenderGraphResources)
    (id view buf q : Nat) :
    (s.set_external_texture id view).versions = s.versions ∧
    (s.set_external_buffer id buf).versions = s.versions ∧
    (s.set_external_texture id view).get_version q = s.get_version q ∧
    (s.set_external_buffer id buf).get_version q = s.get_version q :=
  ⟨rfl, rfl, rfl, rfl⟩

/-! ## C1: external rebinds trigger no bind-group invalidation -/

/-- **C1 (corrected)** — rebinding an external texture or buffer changes no
version, so the invalidation pass of the next `execute`
(`invalidate_bind_groups_for_changed_resources`) emits exactly the same
`invalidate_bind_groups` calls as if the rebind had not happened; in
particular it adds none. -/
theorem claim_C1_amended_rebind_no_invalidate (g : RenderGraphState) (id view buf : Nat) :
    (invalidateStep { g with resources := g.resources.set_external_texture id view }).2
      = (invalidateStep g).2 ∧
    (invalidateStep { g with resources := g.resources.set_external_buffer id buf }).2
      = (invalidateStep g).2 := by
  constructor <;>
  · simp only [invalidateStep, dirtyResources, RenderGraphResources.set_external_texture,
      RenderGraphResources.set_external_buffer, RenderGraphResources.get_version]
    split <;> rfl

/-- `Scene` pass of spec scenario 5: writes slot `output`. -/
def scenePass : PassSpec := ⟨"Scene", [], ["output"], [], true⟩

/-- `Blit` pass of spec scenario 5: reads `input`, writes `output`. -/
def blitPass : PassSpec := ⟨"Blit", ["input"], ["output"], [], true⟩

/-- Scenario-5 graph: external colour `surface` (id 0), transient colour `b`
(id 1); `Scene` writes `b` (vertex 0), `Blit` reads `b` and writes `surface`
(vertex 1); `surface` bound to view 101. -/
def c1Graph : RenderGraphState :=
  let r0 := RenderGraphResources.new
  let r1 := (r0.register_external_resource "surface" (.externalColor none true)).1
  let r2 := (r1.register_transient_resource "b" (.transientColor defaultColorDesc none)).1
  let g0 := { RenderGraphState.new with resources := r2 }
  let g1 := exceptGraphD (addPass g0 scenePass [("output", 1)])
  let g2 := exceptGraphD (addPass g1 blitPass [("input", 1), ("output", 0)])
  { g2 with resources := g2.resources.set_external_texture 0 101 }

/-- First `execute` of scenario 5. -/
def c1Run1 : Except RenderGraphError (RenderGraphState × Nat × List PassEvent) :=
  executeModel c1Graph 1000

/-- State after the first execute, with `surface` rebound to view 102. -/
def c1Rebound : RenderGraphState :=
  let s := exceptStateD c1Run1
  { s with resources := s.resources.set_external_texture 0 102 }

/-- Second `execute` of scenario 5, after the rebind. -/
def c1Run2 : Except RenderGraphError (RenderGraphState × Nat × List PassEvent) :=
  executeModel c1Rebound 2000

/-- **C1 counterexample** — in spec scenario 5 (`surface` bound to V1,
`execute`; rebound to V2, `execute` again) the claim demands that `Blit`
(vertex 1, which has `surface` among its resolved writes) receive exactly one
`invalidate_bind_groups` during the second execute.  On the code it receives
*zero*: `set_external_texture` does not bump the version, so the version diff
in `invalidate_bind_groups_for_changed_resources` sees no dirty resource.
Both executes succeed and `Blit`'s `execute` is delivered in the second run,
so the scenario is genuinely exercised. -/
theorem claim_C1_counterexample :
    countInvalidate (exceptTraceD c1Run2) 1 = 0 ∧
    ¬ countInvalidate (exceptTraceD c1Run2) 1 = 1 ∧
    PassEvent.exec 1 [("input", 1), ("output", 0)] ∈ exceptTraceD c1Run2 := by
  refine ⟨by decide, by decide, by decide⟩

/-! ## C3: incomparable usage masks do not alias (no widening happens) -/

/-- Scenario-4 descriptor table: transient colour textures `t1` (usage
`RENDER_ATTACHMENT|TEXTURE_BINDING`) and `t2` (usage
`RENDER_ATTACHMENT|STORAGE_BINDING`), otherwise identical. -/
def c3Descs : List (Nat × ResourceDescriptor) :=
  [(0, ⟨"t1", .transientColor { defaultColorDesc with
      usage := RENDER_ATTACHMENT + TEXTURE_BINDING } none, false⟩),
   (1, ⟨"t2", .transientColor { defaultColorDesc with
      usage := RENDER_ATTACHMENT + STORAGE_BINDING } none, false⟩)]

/-- Disjoint lifetimes: `t1` lives over [0,1], `t2` over [2,3]. -/
def c3Lifetimes : List ResourceLifetime := [⟨0, 0, 1⟩, ⟨1, 2, 3⟩]

def c3Aliasing : ResourceAliasingInfo := computeResourceAliasing c3Descs c3Lifetimes

/-- **C3 counterexample** — two transient textures identical in
format/size/sample/mip but with usage masks `{RENDER_ATTACHMENT,
TEXTURE_BINDING}` and `{RENDER_ATTACHMENT, STORAGE_BINDING}` and disjoint
lifetimes are placed in *distinct* pool slots (indices 0 and 1), each slot
keeping its own usage mask — not, as the claim says, one shared slot with the
union usage marked for recreation.  `can_alias_textures` requires the slot's
usage to contain the requester's, so the widening branch never runs. -/
theorem claim_C3_counterexample :
    mapLookup c3Aliasing.aliases 0 = some 0 ∧
    mapLookup c3Aliasing.aliases 1 = some 1 ∧
    c3Aliasing.pools.length = 2 ∧
    (c3Aliasing.pools.map PoolSlot.descriptor_info) =
      [some (.texture { defaultColorDesc with
          usage := RENDER_ATTACHMENT + TEXTURE_BINDING }),
       some (.texture { defaultColorDesc with
          usage := RENDER_ATTACHMENT + STORAGE_BINDING })] ∧
    canAliasTextures { defaultColorDesc with usage := RENDER_ATTACHMENT + TEXTURE_BINDING }
      { defaultColorDesc with usage := RENDER_ATTACHMENT + STORAGE_BINDING } = false := by
  refine ⟨by decide, by decide, by decide, by decide, by decide⟩

/-- **C3 (corrected)** — for any two transient colour textures with identical
format, width, height, sample_count and mip_level_count, disjoint lifetimes
(in first-use order) and a second usage mask *not contained* in the first,
the allocator refuses to alias them: each receives its own pool slot carrying
its own descriptor, and no usage widening or recreation flag is produced
(slot reuse requires `can_alias_textures`, which already demands usage
containment, so the widening branch is unreachable for textures). -/
theorem claim_C3_amended_incomparable_usage_distinct_slots
    (descs : List (Nat × ResourceDescriptor)) (r1 r2 f1 l1 f2 l2 : Nat)
    (d1 d2 : RGTextureDescriptor) (cc1 cc2 : Option Nat) (n1 n2 : String)
    (hne : r1 ≠ r2)
    (h1 : mapLookup descs r1 = some ⟨n1, .transientColor d1 cc1, false⟩)
    (h2 : mapLookup descs r2 = some ⟨n2, .transientColor d2 cc2, false⟩)
    (hfl : f1 ≤ l1) (hdisj : l1 < f2)
    (hu : usageContains d1.usage d2.usage = false) :
    mapLookup (computeResourceAliasing descs [⟨r1, f1, l1⟩, ⟨r2, f2, l2⟩]).aliases r1
      = some 0 ∧
    mapLookup (computeResourceAliasing descs [⟨r1, f1, l1⟩, ⟨r2, f2, l2⟩]).aliases r2
      = some 1 ∧
    (computeResourceAliasing descs [⟨r1, f1, l1⟩, ⟨r2, f2, l2⟩]).pools =
      [⟨none, some (.texture d1), l1⟩, ⟨none, some (.texture d2), l2⟩] := by
  have hf12 : f1 < f2 := lt_of_le_of_lt hfl hdisj
  have hsort : sortByFirstUse [⟨r1, f1, l1⟩, ⟨r2, f2, l2⟩]
      = [⟨r1, f1, l1⟩, ⟨r2, f2, l2⟩] := by
    simp only [sortByFirstUse, List.foldl, insertByFirstUse]
    rw [if_neg (not_lt.mpr (le_of_lt hf12))]
  have hstep1 : aliasStep descs ⟨[], [], []⟩ ⟨r1, f1, l1⟩
      = ⟨[(r1, 0)], [⟨none, some (.texture d1), l1⟩], [⟨0, l1, .texture d1⟩]⟩ := by
    unfold aliasStep
    rw [h1]
    rfl
  have hreuse : canReuse (.texture d1) (.transientColor d2 cc2) = false := by
    simp [canReuse, canAliasTextures, hu]
  have hstep2 : aliasStep descs ⟨[(r1, 0)], [⟨none, some (.texture d1), l1⟩],
      [⟨0, l1, .texture d1⟩]⟩ ⟨r2, f2, l2⟩
      = ⟨mapInsert [(r1, 0)] r2 1,
         [⟨none, some (.texture d1), l1⟩, ⟨none, some (.texture d2), l2⟩],
         heapPush ⟨1, l2, .texture d2⟩ [⟨0, l1, .texture d1⟩]⟩ := by
    unfold aliasStep
    rw [h2]
    have hd : (decide (l1 < f2)) = true := decide_eq_true hdisj
    simp only [List.takeWhile, List.dropWhile, hd, scanCandidates, hreuse,
      Bool.false_eq_true, if_false, List.foldl, List.length_cons, List.length_nil]
    rfl
  have hins : mapInsert [(r1, 0)] r2 1 = [(r1, 0), (r2, 1)] := by
    simp [mapInsert, hne]
  simp only [computeResourceAliasing, hsort, List.foldl, hstep1, hstep2, hins]
  simp [mapLookup, hne, Ne.symm hne]

/-- Witness for the corrected C3 at the scenario-4 instance. -/
theorem claim_C3_amended_witness :
    mapLookup (computeResourceAliasing c3Descs [⟨0, 0, 1⟩, ⟨1, 2, 3⟩]).aliases 0 = some 0 ∧
    mapLookup (computeResourceAliasing c3Descs [⟨0, 0, 1⟩, ⟨1, 2, 3⟩]).aliases 1 = some 1 := by
  have h := claim_C3_amended_incomparable_usage_distinct_slots c3Descs 0 1 0 1 2 3
    { defaultColorDesc with usage := RENDER_ATTACHMENT + TEXTURE_BINDING }
    { defaultColorDesc with usage := RENDER_ATTACHMENT + STORAGE_BINDING }
    none none "t1" "t2" (by decide) (by decide) (by decide) (by decide) (by decide) (by decide)
  exact ⟨h.1, h.2.1⟩

/-! ## Lemmas about the allocator's data structures -/

theorem heapPush_perm (e : PoolHeapEntry) (l : List PoolHeapEntry) :
    (heapPush e l).Perm (e :: l) := by
  induction l with
  | nil => simp [heapPush]
  | cons x xs ih =>
    simp only [heapPush]
    by_cases h : e.lifetime_end < x.lifetime_end
    · rw [if_pos h]
    · rw [if_neg h]
      exact ((ih.cons x).trans (List.Perm.swap e x xs))

theorem foldl_heapPush_perm (cs : List PoolHeapEntry) (init : List PoolHeapEntry) :
    (cs.foldl (fun h c => heapPush c h) init).Perm (cs ++ init) := by
  induction cs generalizing init with
  | nil => simp
  | cons c cs ih =>
    simp only [List.foldl, List.cons_append]
    have h1 := ih (heapPush c init)
    have h2 : (cs ++ heapPush c init).Perm (cs ++ c :: init) :=
      List.Perm.append_left cs (heapPush_perm c init)
    have h3 : (cs ++ c :: init).Perm (c :: (cs ++ init)) := List.perm_middle
    exact h1.trans (h2.trans h3)

theorem insertByFirstUse_perm (lt : ResourceLifetime) (l : List ResourceLifetime) :
    (insertByFirstUse lt l).Perm (lt :: l) := by
  induction l with
  | nil => simp [insertByFirstUse]
  | cons x xs ih =>
    simp only [insertByFirstUse]
    by_cases h : lt.first_use < x.first_use
    · rw [if_pos h]
    · rw [if_neg h]
      exact ((ih.cons x).trans (List.Perm.swap lt x xs))

theorem sortByFirstUse_perm (l : List ResourceLifetime) : (sortByFirstUse l).Perm l := by
  suffices h : ∀ acc : List ResourceLifetime,
      (l.foldl (fun acc x => insertByFirstUse x acc) acc).Perm (l.reverse ++ acc) by
    have h0 := h []
    rw [List.append_nil] at h0
    exact h0.trans (List.reverse_perm l)
  induction l with
  | nil => intro acc; simp
  | cons x xs ih =>
    intro acc
    simp only [List.foldl, List.reverse_cons, List.append_assoc, List.singleton_append]
    exact (ih _).trans (List.Perm.append_left xs.reverse (insertByFirstUse_perm x acc))

/-- If the candidate scan finds no reusable slot, the candidate list is
returned unchanged. -/
theorem scanCandidates_none (rt : ResourceType) (lu : Nat) (cs : List PoolHeapEntry)
    (h : (scanCandidates rt lu cs).1 = none) : (scanCandidates rt lu cs).2 = cs := by
  induction cs with
  | nil => rfl
  | cons c cs ih =>
    simp only [scanCandidates] at h ⊢
    by_cases hc : canReuse c.descriptor_info rt
    · rw [if_pos hc] at h; exact absurd h (by simp)
    · rw [if_neg hc] at h ⊢
      simpa using ih (by simpa using h)

/-- If the candidate scan chooses a slot, the chosen entry is a member of the
candidate list, the returned index/descriptor/flag come from widening it, and
the output list is the input with exactly that entry updated in place. -/
theorem scanCandidates_some (rt : ResourceType) (lu : Nat) (cs : List PoolHeapEntry)
    (k : Nat) (di : PoolDescriptorInfo) (nn : Bool)
    (h : (scanCandidates rt lu cs).1 = some (k, di, nn)) :
    ∃ pre e post, cs = pre ++ e :: post ∧
      (scanCandidates rt lu cs).2 =
        pre ++ { e with lifetime_end := lu, descriptor_info := di } :: post ∧
      e.pool_index = k ∧ canReuse e.descriptor_info rt = true ∧
      widenSlot e.descriptor_info rt = (di, nn) := by
  induction cs with
  | nil => exact absurd h (by simp [scanCandidates])
  | cons c cs ih =>
    simp only [scanCandidates] at h ⊢
    by_cases hc : canReuse c.descriptor_info rt
    · rw [if_pos hc] at h ⊢
      obtain ⟨hk, hdi, hnn⟩ : c.pool_index = k ∧ (widenSlot c.descriptor_info rt).1 = di ∧
          (widenSlot c.descriptor_info rt).2 = nn := by
        simpa [Prod.ext_iff] using h
      refine ⟨[], c, cs, by simp, by simp [hdi], hk, hc, ?_⟩
      rw [← hdi, ← hnn]
    · rw [if_neg hc] at h ⊢
      obtain ⟨pre, e, post, hcs, hout, hk, hcr, hw⟩ := ih (by simpa using h)
      exact ⟨c :: pre, e, post, by simp [hcs], by simp [hout], hk, hcr, hw⟩

/-! ## The aliasing invariant: slots are reused only across disjoint lifetimes -/

/-- Disjointness of two closed lifetime intervals. -/
def ltDisjoint (a b : ResourceLifetime) : Prop :=
  a.last_use < b.first_use ∨ b.last_use < a.first_use

theorem get?_some_lt_length {α : Type} {l : List α} {i : Nat} {a : α}
    (h : l.get? i = some a) : i < l.length := by
  rw [List.get?_eq_getElem?] at h
  exact (List.getElem?_eq_some.mp h).1

/-- Loop invariant of `compute_resource_aliasing`: every heap entry points at
an existing pool slot and carries that slot's current `lifetime_end`; heap
entries reference pairwise distinct slots; the alias table only mentions
processed resources; every processed resource's `last_use` is bounded by its
slot's `lifetime_end`; and any two distinct processed resources sharing a
slot have disjoint lifetimes. -/
structure AliasInv (seen : List ResourceLifetime) (st : AliasState) : Prop where
  heapEnd : ∀ e ∈ st.heap, ∃ slot, st.pools.get? e.pool_index = some slot ∧
    e.lifetime_end = slot.lifetime_end
  heapNodup : (st.heap.map PoolHeapEntry.pool_index).Nodup
  aliasDom : ∀ r k, mapLookup st.aliases r = some k →
    r ∈ seen.map ResourceLifetime.resource_id
  aliasBound : ∀ lt ∈ seen, ∀ k, mapLookup st.aliases lt.resource_id = some k →
    ∃ slot, st.pools.get? k = some slot ∧ lt.last_use ≤ slot.lifetime_end
  disj : ∀ lt1 ∈ seen, ∀ lt2 ∈ seen, ∀ k, lt1.resource_id ≠ lt2.resource_id →
    mapLookup st.aliases lt1.resource_id = some k →
    mapLookup st.aliases lt2.resource_id = some k → ltDisjoint lt1 lt2

/-- A state satisfying the invariant also satisfies it with an unprocessed
fresh resource appended to `seen` (vacuously: the alias table cannot mention
it). -/
theorem AliasInv.snoc_fresh {seen : List ResourceLifetime} {st : AliasState}
    {lt : ResourceLifetime} (inv : AliasInv seen st)
    (hfresh : lt.resource_id ∉ seen.map ResourceLifetime.resource_id) :
    AliasInv (seen ++ [lt]) st := by
  refine ⟨inv.heapEnd, inv.heapNodup, ?_, ?_, ?_⟩
  · intro r k h
    rw [List.map_append]
    exact List.mem_append_left _ (inv.aliasDom r k h)
  · intro lt' hmem k h
    rcases List.mem_append.mp hmem with hmem | hmem
    · exact inv.aliasBound lt' hmem k h
    · rw [List.mem_singleton.mp hmem] at h
      exact absurd (inv.aliasDom _ k h) hfresh
  · intro lt1 h1 lt2 h2 k hne ha1 ha2
    rcases List.mem_append.mp h1 with h1 | h1
    · rcases List.mem_append.mp h2 with h2 | h2
      · exact inv.disj lt1 h1 lt2 h2 k hne ha1 ha2
      · rw [List.mem_singleton.mp h2] at ha2
        exact absurd (inv.aliasDom _ k ha2) hfresh
    · rw [List.mem_singleton.mp h1] at ha1
      exact absurd (inv.aliasDom _ k ha1) hfresh

/-- Replacing the heap by a permutation preserves the invariant. -/
theorem AliasInv.perm_heap {seen : List ResourceLifetime} {st : AliasState}
    (inv : AliasInv seen st) (heap' : List PoolHeapEntry)
    (hperm : heap'.Perm st.heap) :
    AliasInv seen ⟨st.aliases, st.pools, heap'⟩ := by
  refine ⟨?_, ?_, inv.aliasDom, inv.aliasBound, inv.disj⟩
  · intro e he
    exact inv.heapEnd e (hperm.mem_iff.mp he)
  · exact ((hperm.map PoolHeapEntry.pool_index).symm).nodup inv.heapNodup

/-- Creating a fresh pool slot for a fresh resource preserves the invariant
(with the resource recorded in `seen`). -/
theorem AliasInv.newSlot {seen : List ResourceLifetime} {st : AliasState}
    {lt : ResourceLifetime} (inv : AliasInv seen st)
    (hfresh : lt.resource_id ∉ seen.map ResourceLifetime.resource_id)
    (di : PoolDescriptorInfo) (heap' : List PoolHeapEntry)
    (hperm : heap'.Perm st.heap) :
    AliasInv (seen ++ [lt])
      ⟨mapInsert st.aliases lt.resource_id st.pools.length,
       st.pools ++ [⟨none, some di, lt.last_use⟩],
       heapPush ⟨st.pools.length, lt.last_use, di⟩ heap'⟩ := by
  have hpiLt : ∀ e ∈ st.heap, e.pool_index < st.pools.length := by
    intro e he
    obtain ⟨slot, hs, -⟩ := inv.heapEnd e he
    exact get?_some_lt_length hs
  have hpushPerm := heapPush_perm (⟨st.pools.length, lt.last_use, di⟩ : PoolHeapEntry) heap'
  refine ⟨?_, ?_, ?_, ?_, ?_⟩
  · intro e he
    rcases List.mem_cons.mp (hpushPerm.mem_iff.mp he) with he | he
    · subst he
      refine ⟨⟨none, some di, lt.last_use⟩, ?_, rfl⟩
      simp [List.get?_eq_getElem?, List.getElem?_concat_length]
    · have heOld : e ∈ st.heap := hperm.mem_iff.mp he
      obtain ⟨slot, hs, hend⟩ := inv.heapEnd e heOld
      refine ⟨slot, ?_, hend⟩
      rw [List.get?_eq_getElem?] at hs ⊢
      rw [List.getElem?_append, if_pos (hpiLt e heOld)]
      exact hs
  · have hmapPerm := (hpushPerm.map PoolHeapEntry.pool_index)
    refine hmapPerm.symm.nodup ?_
    simp only [List.map_cons]
    refine List.Nodup.cons ?_ (((hperm.map PoolHeapEntry.pool_index).symm).nodup inv.heapNodup)
    intro hmem
    obtain ⟨e, he, hpe⟩ := List.mem_map.mp hmem
    exact absurd (hpe ▸ hpiLt e (hperm.mem_iff.mp he)) (lt_irrefl _)
  · intro r k h
    by_cases hr : r = lt.resource_id
    · subst hr
      simp
    · rw [mapLookup_insert_ne _ _ _ _ (Ne.symm hr)] at h
      rw [List.map_append]
      exact List.mem_append_left _ (inv.aliasDom r k h)
  · intro lt' hmem k h
    rcases List.mem_append.mp hmem with hmem | hmem
    · have hne : lt.resource_id ≠ lt'.resource_id := by
        intro he
        exact hfresh (he ▸ List.mem_map_of_mem ResourceLifetime.resource_id hmem)
      rw [mapLookup_insert_ne _ _ _ _ hne] at h
      obtain ⟨slot, hs, hb⟩ := inv.aliasBound lt' hmem k h
      have hkLt : k < st.pools.length := get?_some_lt_length hs
      refine ⟨slot, ?_, hb⟩
      rw [List.get?_eq_getElem?] at hs ⊢
      rw [List.getElem?_append, if_pos hkLt]
      exact hs
    · rw [List.mem_singleton.mp hmem] at h ⊢
      rw [mapLookup_insert] at h
      obtain rfl : st.pools.length = k := by simpa using h
      refine ⟨⟨none, some di, lt.last_use⟩, ?_, le_refl _⟩
      simp [List.get?_eq_getElem?, List.getElem?_concat_length]
  · intro lt1 h1 lt2 h2 k hne ha1 ha2
    rcases List.mem_append.mp h1 with h1 | h1 <;>
      rcases List.mem_append.mp h2 with h2 | h2
    · have hne1 : lt.resource_id ≠ lt1.resource_id := fun he =>
        hfresh (he ▸ List.mem_map_of_mem ResourceLifetime.resource_id h1)
      have hne2 : lt.resource_id ≠ lt2.resource_id := fun he =>
        hfresh (he ▸ List.mem_map_of_mem ResourceLifetime.resource_id h2)
      rw [mapLookup_insert_ne _ _ _ _ hne1] at ha1
      rw [mapLookup_insert_ne _ _ _ _ hne2] at ha2
      exact inv.disj lt1 h1 lt2 h2 k hne ha1 ha2
    · -- lt2 = lt sharing the *new* slot with an old resource: impossible
      rw [List.mem_singleton.mp h2] at ha2
      rw [mapLookup_insert] at ha2
      obtain rfl : st.pools.length = k := by simpa using ha2
      have hne1 : lt.resource_id ≠ lt1.resource_id := fun he =>
        hfresh (he ▸ List.mem_map_of_mem ResourceLifetime.resource_id h1)
      rw [mapLookup_insert_ne _ _ _ _ hne1] at ha1
      obtain ⟨slot, hs, -⟩ := inv.aliasBound lt1 h1 _ ha1
      exact absurd (get?_some_lt_length hs) (lt_irrefl _)
    · rw [List.mem_singleton.mp h1] at ha1
      rw [mapLookup_insert] at ha1
      obtain rfl : st.pools.length = k := by simpa using ha1
      have hne2 : lt.resource_id ≠ lt2.resource_id := fun he =>
        hfresh (he ▸ List.mem_map_of_mem ResourceLifetime.resource_id h2)
      rw [mapLookup_insert_ne _ _ _ _ hne2] at ha2
      obtain ⟨slot, hs, -⟩ := inv.aliasBound lt2 h2 _ ha2
      exact absurd (get?_some_lt_length hs) (lt_irrefl _)
    · rw [List.mem_singleton.mp h1, List.mem_singleton.mp h2] at hne
      exact absurd rfl hne

/-- Reusing an expired pool slot preserves the invariant: the chosen heap
entry's `lifetime_end` (= the slot's current end, i.e. the `last_use` of the
resource last assigned there) lies strictly before the new resource's
`first_use`, so all lifetimes already in the slot are disjoint from the new
one. -/
theorem AliasInv.reuse {seen : List ResourceLifetime} {st : AliasState}
    {lt : ResourceLifetime} (inv : AliasInv seen st)
    (hfl : lt.first_use ≤ lt.last_use)
    (hfresh : lt.resource_id ∉ seen.map ResourceLifetime.resource_id)
    (pre post rest : List PoolHeapEntry) (e : PoolHeapEntry)
    (di : PoolDescriptorInfo) (nn : Bool) (slot0 : PoolSlot)
    (hsplit : st.heap = (pre ++ e :: post) ++ rest)
    (hcand : e.lifetime_end < lt.first_use)
    (hslot : st.pools.get? e.pool_index = some slot0)
    (hend : e.lifetime_end = slot0.lifetime_end)
    (heap2 : List PoolHeapEntry)
    (hperm2 : heap2.Perm
      ((pre ++ { e with lifetime_end := lt.last_use, descriptor_info := di } :: post)
        ++ rest)) :
    AliasInv (seen ++ [lt])
      ⟨mapInsert st.aliases lt.resource_id e.pool_index,
       st.pools.set e.pool_index
         ⟨if nn then none else slot0.resource, some di, lt.last_use⟩,
       heap2⟩ := by
  have hkLt : e.pool_index < st.pools.length := get?_some_lt_length hslot
  have hmid : ((pre ++ e :: post) ++ rest).Perm (e :: (pre ++ (post ++ rest))) := by
    rw [List.append_assoc, List.cons_append]
    exact List.perm_middle
  have hmid' : ((pre ++ { e with lifetime_end := lt.last_use, descriptor_info := di }
      :: post) ++ rest).Perm
      ({ e with lifetime_end := lt.last_use, descriptor_info := di }
        :: (pre ++ (post ++ rest))) := by
    rw [List.append_assoc, List.cons_append]
    exact List.perm_middle
  have hnd : (((pre ++ e :: post) ++ rest).map PoolHeapEntry.pool_index).Nodup := by
    rw [← hsplit]; exact inv.heapNodup
  have hndCons : e.pool_index ∉
      ((pre ++ (post ++ rest)).map PoolHeapEntry.pool_index) ∧
      ((pre ++ (post ++ rest)).map PoolHeapEntry.pool_index).Nodup := by
    have := ((hmid.map PoolHeapEntry.pool_index)).nodup hnd
    simpa [List.nodup_cons] using this
  have hothersMem : ∀ e2 ∈ pre ++ (post ++ rest), e2 ∈ st.heap := by
    intro e2 h2
    rw [hsplit]
    exact (hmid.symm.mem_iff.mp (List.mem_cons_of_mem _ h2))
  have hothersNe : ∀ e2 ∈ pre ++ (post ++ rest), e2.pool_index ≠ e.pool_index := by
    intro e2 h2 hpe
    exact hndCons.1 (hpe ▸ List.mem_map_of_mem PoolHeapEntry.pool_index h2)
  refine ⟨?_, ?_, ?_, ?_, ?_⟩
  · intro e2 he2
    rcases List.mem_cons.mp (hmid'.mem_iff.mp (hperm2.mem_iff.mp he2)) with he2 | he2
    · subst he2
      refine ⟨⟨if nn then none else slot0.resource, some di, lt.last_use⟩, ?_, rfl⟩
      rw [List.get?_eq_getElem?]
      exact List.getElem?_set_self hkLt
    · obtain ⟨slot, hs, hendOld⟩ := inv.heapEnd e2 (hothersMem e2 he2)
      refine ⟨slot, ?_, hendOld⟩
      rw [List.get?_eq_getElem?] at hs ⊢
      rw [List.getElem?_set_ne (Ne.symm (hothersNe e2 he2))]
      exact hs
  · refine ((hperm2.map PoolHeapEntry.pool_index).symm).nodup ?_
    have heq : ((pre ++ { e with lifetime_end := lt.last_use, descriptor_info := di }
        :: post) ++ rest).map PoolHeapEntry.pool_index
        = ((pre ++ e :: post) ++ rest).map PoolHeapEntry.pool_index := by
      simp
    rw [heq]
    exact hnd
  · intro r k h
    by_cases hr : r = lt.resource_id
    · subst hr
      simp
    · rw [mapLookup_insert_ne _ _ _ _ (Ne.symm hr)] at h
      rw [List.map_append]
      exact List.mem_append_left _ (inv.aliasDom r k h)
  · intro lt' hmem k h
    rcases List.mem_append.mp hmem with hmem | hmem
    · have hne : lt.resource_id ≠ lt'.resource_id := fun he =>
        hfresh (he ▸ List.mem_map_of_mem ResourceLifetime.resource_id hmem)
      rw [mapLookup_insert_ne _ _ _ _ hne] at h
      obtain ⟨slot, hs, hb⟩ := inv.aliasBound lt' hmem k h
      by_cases hk : k = e.pool_index
      · subst hk
        have hs0 : slot0 = slot := by rw [hslot] at hs; exact Option.some_inj.mp hs
        rw [← hs0] at hb
        refine ⟨⟨if nn then none else slot0.resource, some di, lt.last_use⟩, ?_, ?_⟩
        · rw [List.get?_eq_getElem?]
          exact List.getElem?_set_self hkLt
        · exact le_trans hb (le_trans (le_of_lt (hend ▸ hcand)) hfl)
      · refine ⟨slot, ?_, hb⟩
        rw [List.get?_eq_getElem?] at hs ⊢
        rw [List.getElem?_set_ne (fun he => hk he.symm)]
        exact hs
    · rw [List.mem_singleton.mp hmem] at h ⊢
      rw [mapLookup_insert] at h
      obtain rfl : e.pool_index = k := by simpa using h
      refine ⟨⟨if nn then none else slot0.resource, some di, lt.last_use⟩, ?_, le_refl _⟩
      rw [List.get?_eq_getElem?]
      exact List.getElem?_set_self hkLt
  · intro lt1 h1 lt2 h2 k hne12 ha1 ha2
    have hOldNew : ∀ ltOld ∈ seen,
        mapLookup st.aliases ltOld.resource_id = some e.pool_index →
        ltOld.last_use < lt.first_use := by
      intro ltOld hmemOld haOld
      obtain ⟨slot, hs, hb⟩ := inv.aliasBound ltOld hmemOld _ haOld
      obtain rfl : slot = slot0 := by rw [hslot] at hs; exact (Option.some_inj.mp hs).symm
      exact lt_of_le_of_lt hb (hend ▸ hcand)
    rcases List.mem_append.mp h1 with h1 | h1 <;>
      rcases List.mem_append.mp h2 with h2 | h2
    · have hne1 : lt.resource_id ≠ lt1.resource_id := fun he =>
        hfresh (he ▸ List.mem_map_of_mem ResourceLifetime.resource_id h1)
      have hne2 : lt.resource_id ≠ lt2.resource_id := fun he =>
        hfresh (he ▸ List.mem_map_of_mem ResourceLifetime.resource_id h2)
      rw [mapLookup_insert_ne _ _ _ _ hne1] at ha1
      rw [mapLookup_insert_ne _ _ _ _ hne2] at ha2
      exact inv.disj lt1 h1 lt2 h2 k hne12 ha1 ha2
    · rw [List.mem_singleton.mp h2] at ha2 ⊢
      rw [mapLookup_insert] at ha2
      obtain rfl : e.pool_index = k := by simpa using ha2
      have hne1 : lt.resource_id ≠ lt1.resource_id := fun he =>
        hfresh (he ▸ List.mem_map_of_mem ResourceLifetime.resource_id h1)
      rw [mapLookup_insert_ne _ _ _ _ hne1] at ha1
      exact Or.inl (hOldNew lt1 h1 ha1)
    · rw [List.mem_singleton.mp h1] at ha1 ⊢
      rw [mapLookup_insert] at ha1
      obtain rfl : e.pool_index = k := by simpa using ha1
      have hne2 : lt.resource_id ≠ lt2.resource_id := fun he =>
        hfresh (he ▸ List.mem_map_of_mem ResourceLifetime.resource_id h2)
      rw [mapLookup_insert_ne _ _ _ _ hne2] at ha2
      exact Or.inr (hOldNew lt2 h2 ha2)
    · rw [List.mem_singleton.mp h1, List.mem_singleton.mp h2] at hne12
      exact absurd rfl hne12

/-- One allocator iteration preserves the invariant. -/
theorem aliasStep_inv (descs : List (Nat × ResourceDescriptor))
    (seen : List ResourceLifetime) (st : AliasState) (lt : ResourceLifetime)
    (inv : AliasInv seen st) (hfl : lt.first_use ≤ lt.last_use)
    (hfresh : lt.resource_id ∉ seen.map ResourceLifetime.resource_id) :
    AliasInv (seen ++ [lt]) (aliasStep descs st lt) := by
  unfold aliasStep
  cases hd : mapLookup descs lt.resource_id with
  | none => exact inv.snoc_fresh hfresh
  | some descriptor =>
    simp only []
    have hsplit : st.heap.takeWhile (fun e => e.lifetime_end < lt.first_use) ++
        st.heap.dropWhile (fun e => e.lifetime_end < lt.first_use) = st.heap :=
      List.takeWhile_append_dropWhile _ _
    cases hsc : (scanCandidates descriptor.resource_type lt.last_use
        (st.heap.takeWhile (fun e => e.lifetime_end < lt.first_use))).1 with
    | none =>
      have hsc2 := scanCandidates_none _ _ _ hsc
      rw [hsc2]
      have hperm : ((st.heap.takeWhile (fun e => e.lifetime_end < lt.first_use)).foldl
          (fun h c => heapPush c h)
          (st.heap.dropWhile (fun e => e.lifetime_end < lt.first_use))).Perm st.heap := by
        refine (foldl_heapPush_perm _ _).trans ?_
        rw [hsplit]
      cases descriptor.resource_type with
      | transientColor td cc => exact inv.newSlot hfresh (.texture td) _ hperm
      | transientDepth td cd => exact inv.newSlot hfresh (.texture td) _ hperm
      | transientBuffer bd => exact inv.newSlot hfresh (.buffer bd) _ hperm
      | externalColor cc fs => exact (inv.perm_heap _ hperm).snoc_fresh hfresh
      | externalDepth cd fs => exact (inv.perm_heap _ hperm).snoc_fresh hfresh
      | externalBuffer => exact (inv.perm_heap _ hperm).snoc_fresh hfresh
    | some kdi =>
      obtain ⟨k, di, nn⟩ := kdi
      obtain ⟨pre, e, post, hcands, hout, hk, hcr, hw⟩ :=
        scanCandidates_some _ _ _ _ _ _ hsc
      have heTake : e ∈ st.heap.takeWhile (fun e => e.lifetime_end < lt.first_use) := by
        rw [hcands]
        exact List.mem_append_right _ (List.mem_cons_self _ _)
      have hcand : e.lifetime_end < lt.first_use := by
        simpa using List.mem_takeWhile_imp heTake
      have heMem : e ∈ st.heap := by
        rw [← hsplit]
        exact List.mem_append_left _ heTake
      obtain ⟨slot0, hslot, hend⟩ := inv.heapEnd e heMem
      subst hk
      show AliasInv (seen ++ [lt])
        ⟨mapInsert st.aliases lt.resource_id e.pool_index,
         (match st.pools.get? e.pool_index with
          | some slot => st.pools.set e.pool_index
              { resource := if nn = true then none else slot.resource
                descriptor_info := some di
                lifetime_end := lt.last_use }
          | none => st.pools),
         List.foldl (fun h c => heapPush c h)
           (List.dropWhile (fun e => decide (e.lifetime_end < lt.first_use)) st.heap)
           (scanCandidates descriptor.resource_type lt.last_use
             (List.takeWhile (fun e => decide (e.lifetime_end < lt.first_use)) st.heap)).2⟩
      rw [hslot]
      rw [hout]
      have hperm2 : ((pre ++ { e with lifetime_end := lt.last_use, descriptor_info := di }
          :: post).foldl (fun h c => heapPush c h)
          (st.heap.dropWhile (fun e => e.lifetime_end < lt.first_use))).Perm
          ((pre ++ { e with lifetime_end := lt.last_use, descriptor_info := di } :: post)
            ++ st.heap.dropWhile (fun e => e.lifetime_end < lt.first_use)) :=
        foldl_heapPush_perm _ _
      have hheapSplit : st.heap = (pre ++ e :: post) ++
          List.dropWhile (fun e => decide (e.lifetime_end < lt.first_use)) st.heap := by
        conv_lhs => rw [← hsplit]
        rw [hcands]
      exact inv.reuse hfl hfresh pre post _ e di nn slot0
        hheapSplit hcand hslot hend _ hperm2

/-- The whole allocator loop preserves the invariant. -/
theorem aliasFold_inv (descs : List (Nat × ResourceDescriptor))
    (lts : List ResourceLifetime) (seen : List ResourceLifetime) (st : AliasState)
    (inv : AliasInv seen st)
    (hfl : ∀ lt ∈ lts, lt.first_use ≤ lt.last_use)
    (hnd : (seen.map ResourceLifetime.resource_id
      ++ lts.map ResourceLifetime.resource_id).Nodup) :
    AliasInv (seen ++ lts) (lts.foldl (aliasStep descs) st) := by
  induction lts generalizing seen st with
  | nil => simpa using inv
  | cons lt rest ih =>
    have hnd' := hnd
    rw [List.map_cons] at hnd'
    have hfresh : lt.resource_id ∉ seen.map ResourceLifetime.resource_id := by
      intro hmem
      have hdisj := (List.nodup_append.mp hnd').2.2
      exact hdisj hmem (List.mem_cons_self _ _)
    have step := aliasStep_inv descs seen st lt inv (hfl lt (List.mem_cons_self _ _)) hfresh
    have hrest := ih (seen ++ [lt]) (aliasStep descs st lt) step
      (fun lt' h => hfl lt' (List.mem_cons_of_mem _ h))
      (by simpa [List.map_append, List.append_assoc] using hnd')
    simpa [List.append_assoc] using hrest

/-- The trivial invariant at the allocator's initial state. -/
theorem aliasInv_init : AliasInv [] ⟨[], [], []⟩ := by
  refine ⟨?_, ?_, ?_, ?_, ?_⟩
  · intro e he; cases he
  · simp
  · intro r k h; cases h
  · intro lt h; cases h
  · intro lt1 h1; cases h1

/-- Two distinct resources assigned to the same pool slot by
`compute_resource_aliasing` have disjoint lifetime intervals. -/
theorem computeResourceAliasing_disjoint (descs : List (Nat × ResourceDescriptor))
    (lifetimes : List ResourceLifetime)
    (hfl : ∀ lt ∈ lifetimes, lt.first_use ≤ lt.last_use)
    (hnd : (lifetimes.map ResourceLifetime.resource_id).Nodup) :
    ∀ lt1 ∈ lifetimes, ∀ lt2 ∈ lifetimes, ∀ k,
      lt1.resource_id ≠ lt2.resource_id →
      mapLookup (computeResourceAliasing descs lifetimes).aliases lt1.resource_id
        = some k →
      mapLookup (computeResourceAliasing descs lifetimes).aliases lt2.resource_id
        = some k →
      ltDisjoint lt1 lt2 := by
  intro lt1 h1 lt2 h2 k hne ha1 ha2
  have hperm := sortByFirstUse_perm lifetimes
  have inv := aliasFold_inv descs (sortByFirstUse lifetimes) [] ⟨[], [], []⟩
    aliasInv_init
    (fun lt h => hfl lt (hperm.mem_iff.mp h))
    (by
      simpa using (hperm.map ResourceLifetime.resource_id).symm.nodup hnd)
  exact inv.disj lt1 (by simpa using hperm.mem_iff.mpr h1)
    lt2 (by simpa using hperm.mem_iff.mpr h2) k hne ha1 ha2

/-! ## Well-formedness of `compute_resource_lifetimes` -/

theorem mem_mapInsert {κ α : Type} [DecidableEq κ] (m : List (κ × α)) (k : κ) (v : α) :
    ∀ p ∈ mapInsert m k v, p = (k, v) ∨ p ∈ m := by
  induction m with
  | nil => intro p hp; simpa [mapInsert] using hp
  | cons q rest ih =>
    intro p hp
    by_cases hq : q.1 = k
    · simp only [mapInsert, if_pos hq] at hp
      rcases List.mem_cons.mp hp with hp | hp
      · exact Or.inl hp
      · exact Or.inr (List.mem_cons_of_mem _ hp)
    · simp only [mapInsert, if_neg hq] at hp
      rcases List.mem_cons.mp hp with hp | hp
      · exact Or.inr (hp ▸ List.mem_cons_self _ _)
      · rcases ih p hp with hp | hp
        · exact Or.inl hp
        · exact Or.inr (List.mem_cons_of_mem _ hp)

theorem keys_mapInsert_subset {κ α : Type} [DecidableEq κ] (m : List (κ × α)) (k : κ)
    (v : α) : ∀ a ∈ (mapInsert m k v).map Prod.fst, a ∈ m.map Prod.fst ∨ a = k := by
  intro a ha
  obtain ⟨p, hp, hpa⟩ := List.mem_map.mp ha
  rcases mem_mapInsert m k v p hp with hp' | hp'
  · right; rw [← hpa, hp']
  · left; exact hpa ▸ List.mem_map_of_mem Prod.fst hp'

theorem keys_mapInsert_nodup {κ α : Type} [DecidableEq κ] (m : List (κ × α)) (k : κ)
    (v : α) (h : (m.map Prod.fst).Nodup) : ((mapInsert m k v).map Prod.fst).Nodup := by
  induction m with
  | nil => simp [mapInsert]
  | cons q rest ih =>
    rw [List.map_cons, List.nodup_cons] at h
    by_cases hq : q.1 = k
    · simp only [mapInsert, if_pos hq, List.map_cons, List.nodup_cons]
      exact ⟨hq ▸ h.1, h.2⟩
    · simp only [mapInsert, if_neg hq, List.map_cons, List.nodup_cons]
      refine ⟨?_, ih h.2⟩
      intro hmem
      rcases keys_mapInsert_subset rest k v q.1 hmem with hmem | hmem
      · exact h.1 hmem
      · exact hq hmem

/-- Per-entry well-formedness of the lifetime map at bound `n`: the entry's
key is its resource id, the interval is ordered, and it ends before `n`. -/
def LifeQ (n : Nat) (p : Nat × ResourceLifetime) : Prop :=
  p.2.resource_id = p.1 ∧ p.2.first_use ≤ p.2.last_use ∧ p.2.last_use < n

theorem lifeQ_mono {n n' : Nat} (h : n ≤ n') (p : Nat × ResourceLifetime)
    (hq : LifeQ n p) : LifeQ n' p :=
  ⟨hq.1, hq.2.1, lt_of_lt_of_le hq.2.2 h⟩

/-- The write fold of `compute_resource_lifetimes` (insert-if-absent of
`[i, i]`) preserves well-formedness at bound `i + 1`. -/
theorem lifeFold_write_wf (i : Nat) (rs : List Nat) (m : List (Nat × ResourceLifetime))
    (hk : (m.map Prod.fst).Nodup) (hq : ∀ p ∈ m, LifeQ (i + 1) p) :
    ((rs.foldl (fun m r =>
      match mapLookup m r with
      | some _ => m
      | none => mapInsert m r ⟨r, i, i⟩) m).map Prod.fst).Nodup ∧
    ∀ p ∈ rs.foldl (fun m r =>
      match mapLookup m r with
      | some _ => m
      | none => mapInsert m r ⟨r, i, i⟩) m, LifeQ (i + 1) p := by
  induction rs generalizing m with
  | nil => exact ⟨hk, hq⟩
  | cons r rs ih =>
    simp only [List.foldl]
    cases hr : mapLookup m r with
    | some lt => exact ih m hk hq
    | none =>
      refine ih _ (keys_mapInsert_nodup m r _ hk) ?_
      intro p hp
      rcases mem_mapInsert m r _ p hp with hp | hp
      · subst hp
        exact ⟨rfl, le_refl _, Nat.lt_succ_self _⟩
      · exact hq p hp

/-- The read / read-write folds of `compute_resource_lifetimes` (update
`last_use := i`, insert `[i, i]` if absent) preserve well-formedness at
bound `i + 1`. -/
theorem lifeFold_read_wf (i : Nat) (rs : List Nat) (m : List (Nat × ResourceLifetime))
    (hk : (m.map Prod.fst).Nodup) (hq : ∀ p ∈ m, LifeQ (i + 1) p) :
    ((rs.foldl (fun m r =>
      match mapLookup m r with
      | some lt => mapInsert m r { lt with last_use := i }
      | none => mapInsert m r ⟨r, i, i⟩) m).map Prod.fst).Nodup ∧
    ∀ p ∈ rs.foldl (fun m r =>
      match mapLookup m r with
      | some lt => mapInsert m r { lt with last_use := i }
      | none => mapInsert m r ⟨r, i, i⟩) m, LifeQ (i + 1) p := by
  induction rs generalizing m with
  | nil => exact ⟨hk, hq⟩
  | cons r rs ih =>
    simp only [List.foldl]
    cases hr : mapLookup m r with
    | some lt =>
      refine ih _ (keys_mapInsert_nodup m r _ hk) ?_
      intro p hp
      rcases mem_mapInsert m r _ p hp with hp | hp
      · subst hp
        have hltm : (r, lt) ∈ m := by
          clear hp hq hk ih
          induction m with
          | nil => cases hr
          | cons q rest ihm =>
            by_cases hq1 : q.1 = r
            · simp only [mapLookup, if_pos hq1] at hr
              obtain rfl : q.2 = lt := Option.some_inj.mp hr
              have hqe : (r, q.2) = q := by rw [← hq1]
              rw [hqe]
              exact List.mem_cons_self _ _
            · simp only [mapLookup, if_neg hq1] at hr
              exact List.mem_cons_of_mem _ (ihm hr)
        have hqlt := hq _ hltm
        refine ⟨hqlt.1, ?_, Nat.lt_succ_self _⟩
        exact le_trans hqlt.2.1 (Nat.lt_succ_iff.mp hqlt.2.2)
      · exact hq p hp
    | none =>
      refine ih _ (keys_mapInsert_nodup m r _ hk) ?_
      intro p hp
      rcases mem_mapInsert m r _ p hp with hp | hp
      · subst hp
        exact ⟨rfl, le_refl _, Nat.lt_succ_self _⟩
      · exact hq p hp

/-- One pass of `compute_resource_lifetimes` preserves well-formedness,
raising the bound from `i` to `i + 1`. -/
theorem lifetimeStep_wf (nodes : List GraphNode) (i ni : Nat)
    (m : List (Nat × ResourceLifetime))
    (hk : (m.map Prod.fst).Nodup) (hq : ∀ p ∈ m, LifeQ i p) :
    ((lifetimeStep nodes m (i, ni)).map Prod.fst).Nodup ∧
    ∀ p ∈ lifetimeStep nodes m (i, ni), LifeQ (i + 1) p := by
  have hq' : ∀ p ∈ m, LifeQ (i + 1) p := fun p hp =>
    lifeQ_mono (Nat.le_succ i) p (hq p hp)
  unfold lifetimeStep
  cases hn : nodes.get? ni with
  | none => exact ⟨hk, hq'⟩
  | some node =>
    have h1 := lifeFold_write_wf i node.writes m hk hq'
    have h2 := lifeFold_read_wf i node.reads _ h1.1 h1.2
    exact lifeFold_read_wf i node.reads_writes _ h2.1 h2.2

/-- Folding `lifetimeStep` over an enumerated suffix keeps the map
well-formed. -/
theorem lifetimeFold_wf (nodes : List GraphNode) (order : List Nat) (n : Nat)
    (m : List (Nat × ResourceLifetime))
    (hk : (m.map Prod.fst).Nodup) (hq : ∀ p ∈ m, LifeQ n p) :
    (((List.enumFrom n order).foldl (lifetimeStep nodes) m).map Prod.fst).Nodup ∧
    ∀ p ∈ (List.enumFrom n order).foldl (lifetimeStep nodes) m,
      LifeQ (n + order.length) p := by
  induction order generalizing n m with
  | nil => exact ⟨hk, hq⟩
  | cons ni rest ih =>
    simp only [List.enumFrom, List.foldl]
    have hstep := lifetimeStep_wf nodes n ni m hk hq
    have := ih (n + 1) _ hstep.1 hstep.2
    refine ⟨this.1, fun p hp => ?_⟩
    have := this.2 p hp
    refine lifeQ_mono ?_ p this
    simp only [List.length_cons]
    omega

/-- Every lifetime produced by `compute_resource_lifetimes` is an ordered
interval, and the resource ids in the output are pairwise distinct. -/
theorem computeResourceLifetimes_wf (g : RenderGraphState) (order : List Nat) :
    (∀ lt ∈ computeResourceLifetimes g order, lt.first_use ≤ lt.last_use) ∧
    ((computeResourceLifetimes g order).map ResourceLifetime.resource_id).Nodup := by
  have hfold := lifetimeFold_wf g.nodes order 0 [] (by simp) (by intro p hp; cases hp)
  have henum : order.enum = List.enumFrom 0 order := rfl
  constructor
  · intro lt hlt
    unfold computeResourceLifetimes at hlt
    obtain ⟨p, hp, hple⟩ := List.mem_map.mp hlt
    have hpm := List.mem_of_mem_filter hp
    rw [henum] at hpm
    exact hple ▸ (hfold.2 p hpm).2.1
  · unfold computeResourceLifetimes
    rw [henum]
    have hmapeq : ((List.filter
        (fun p => match mapLookup g.resources.descriptors p.1 with
          | some d => !d.is_external
          | none => false)
        ((List.enumFrom 0 order).foldl (lifetimeStep g.nodes) [])).map
          (fun p => p.2.resource_id))
      = ((List.filter
        (fun p => match mapLookup g.resources.descriptors p.1 with
          | some d => !d.is_external
          | none => false)
        ((List.enumFrom 0 order).foldl (lifetimeStep g.nodes) [])).map Prod.fst) := by
      refine List.map_congr_left ?_
      intro p hp
      exact (hfold.2 p (List.mem_of_mem_filter hp)).1
    rw [List.map_map]
    refine ?_
    have hsub : ((List.filter
        (fun p => match mapLookup g.resources.descriptors p.1 with
          | some d => !d.is_external
          | none => false)
        ((List.enumFrom 0 order).foldl (lifetimeStep g.nodes) [])).map Prod.fst).Sublist
        ((((List.enumFrom 0 order).foldl (lifetimeStep g.nodes) [])).map Prod.fst) :=
      (List.filter_sublist _).map Prod.fst
    have := hsub.nodup hfold.1
    rw [← hmapeq] at this
    exact this

/-! ## C5: resources sharing a pool slot have disjoint lifetimes -/

/-- **C5** — for any graph and execution order, two distinct resources that
`compute_resource_aliasing` maps to the same pool slot have disjoint
`[first_use, last_use]` intervals.  (The heap only offers a slot for reuse
when its recorded `lifetime_end` — the `last_use` of the resource last placed
there — is strictly below the requester's `first_use`, which is why
touching intervals such as `[0,1]` and `[1,2]` never share a slot.) -/
theorem claim_C5_shared_slot_disjoint (g : RenderGraphState) (order : List Nat)
    (lt1 lt2 : ResourceLifetime) (k : Nat)
    (h1 : lt1 ∈ computeResourceLifetimes g order)
    (h2 : lt2 ∈ computeResourceLifetimes g order)
    (hne : lt1.resource_id ≠ lt2.resource_id)
    (ha1 : mapLookup (computeResourceAliasing g.resources.descriptors
        (computeResourceLifetimes g order)).aliases lt1.resource_id = some k)
    (ha2 : mapLookup (computeResourceAliasing g.resources.descriptors
        (computeResourceLifetimes g order)).aliases lt2.resource_id = some k) :
    lt1.last_use < lt2.first_use ∨ lt2.last_use < lt1.first_use := by
  have hwf := computeResourceLifetimes_wf g order
  exact computeResourceAliasing_disjoint g.resources.descriptors
    (computeResourceLifetimes g order) hwf.1 hwf.2 lt1 h1 lt2 h2 k hne ha1 ha2

/-- Scenario-2 chain: transients `a` (id 0), `c` (id 1), `b` (id 2), all of
identical default descriptors; passes `A` writes `a`, `Copy` reads `a` writes
`c`, `Mid` reads `c` writes `b`, `Sink` reads `b`.  The dependency chain
forces the unique execution order `[0, 1, 2, 3]`; lifetimes are `a = [0,1]`,
`c = [1,2]`, `b = [2,3]`, and the allocator puts `a` and `b` in pool slot 0. -/
def c5Graph : RenderGraphState :=
  let r0 := RenderGraphResources.new
  let r1 := (r0.register_transient_resource "a" (.transientColor defaultColorDesc none)).1
  let r2 := (r1.register_transient_resource "c" (.transientColor defaultColorDesc none)).1
  let r3 := (r2.register_transient_resource "b" (.transientColor defaultColorDesc none)).1
  let g0 := { RenderGraphState.new with resources := r3 }
  let g1 := exceptGraphD (addPass g0 ⟨"A", [], ["o"], [], true⟩ [("o", 0)])
  let g2 := exceptGraphD (addPass g1 ⟨"Copy", ["i"], ["o"], [], true⟩ [("i", 0), ("o", 1)])
  let g3 := exceptGraphD (addPass g2 ⟨"Mid", ["i"], ["o"], [], true⟩ [("i", 1), ("o", 2)])
  exceptGraphD (addPass g3 ⟨"Sink", ["i"], [], [], true⟩ [("i", 2)])

/-- Witness for C5 at the scenario-2 instance: `a` and `b` do share slot 0,
and the theorem yields the disjointness of their intervals. -/
theorem claim_C5_witness :
    (⟨0, 0, 1⟩ : ResourceLifetime) ∈ computeResourceLifetimes c5Graph [0, 1, 2, 3] ∧
    mapLookup (computeResourceAliasing c5Graph.resources.descriptors
        (computeResourceLifetimes c5Graph [0, 1, 2, 3])).aliases 0 = some 0 ∧
    mapLookup (computeResourceAliasing c5Graph.resources.descriptors
        (computeResourceLifetimes c5Graph [0, 1, 2, 3])).aliases 2 = some 0 ∧
    ((1 : Nat) < 2 ∨ (3 : Nat) < 0) := by
  refine ⟨by decide, by decide, by decide, ?_⟩
  exact claim_C5_shared_slot_disjoint c5Graph [0, 1, 2, 3] ⟨0, 0, 1⟩ ⟨2, 2, 3⟩ 0
    (by decide) (by decide) (by decide) (by decide) (by decide)

/-! ## C7: transients used only by culled passes still get pool slots -/

/-- Whether a resource type is one of the transient variants the allocator
creates pool slots for. -/
def isTransientType : ResourceType → Bool
  | .transientColor _ _ => true
  | .transientDepth _ _ => true
  | .transientBuffer _ => true
  | _ => false

theorem aliasStep_preserves_isSome (descs : List (Nat × ResourceDescriptor))
    (st : AliasState) (lt : ResourceLifetime) (r : Nat)
    (h : (mapLookup st.aliases r).isSome) :
    (mapLookup (aliasStep descs st lt).aliases r).isSome := by
  unfold aliasStep
  cases hd : mapLookup descs lt.resource_id with
  | none => exact h
  | some descriptor =>
    simp only []
    cases hsc : (scanCandidates descriptor.resource_type lt.last_use
        (st.heap.takeWhile (fun e => e.lifetime_end < lt.first_use))).1 with
    | some kdi => exact mapLookup_insert_isSome _ _ _ _ h
    | none =>
      cases descriptor.resource_type with
      | transientColor td cc => exact mapLookup_insert_isSome _ _ _ _ h
      | transientDepth td cd => exact mapLookup_insert_isSome _ _ _ _ h
      | transientBuffer bd => exact mapLookup_insert_isSome _ _ _ _ h
      | externalColor cc fs => exact h
      | externalDepth cd fs => exact h
      | externalBuffer => exact h

theorem aliasStep_self_isSome (descs : List (Nat × ResourceDescriptor))
    (st : AliasState) (lt : ResourceLifetime) (d : ResourceDescriptor)
    (hd : mapLookup descs lt.resource_id = some d)
    (ht : isTransientType d.resource_type = true) :
    (mapLookup (aliasStep descs st lt).aliases lt.resource_id).isSome := by
  unfold aliasStep
  rw [hd]
  simp only []
  cases hsc : (scanCandidates d.resource_type lt.last_use
      (st.heap.takeWhile (fun e => e.lifetime_end < lt.first_use))).1 with
  | some kdi => simp [mapLookup_insert]
  | none =>
    cases htype : d.resource_type with
    | transientColor td cc => simp [mapLookup_insert]
    | transientDepth td cd => simp [mapLookup_insert]
    | transientBuffer bd => simp [mapLookup_insert]
    | externalColor cc fs => rw [htype] at ht; cases ht
    | externalDepth cd fs => rw [htype] at ht; cases ht
    | externalBuffer => rw [htype] at ht; cases ht

theorem aliasFold_preserves_isSome (descs : List (Nat × ResourceDescriptor))
    (lts : List ResourceLifetime) (st : AliasState) (r : Nat)
    (h : (mapLookup st.aliases r).isSome) :
    (mapLookup (lts.foldl (aliasStep descs) st).aliases r).isSome := by
  induction lts generalizing st with
  | nil => exact h
  | cons x rest ih =>
    simp only [List.foldl]
    exact ih _ (aliasStep_preserves_isSome descs st x r h)

theorem aliasFold_isSome (descs : List (Nat × ResourceDescriptor))
    (lts : List ResourceLifetime) (st : AliasState) (lt : ResourceLifetime)
    (d : ResourceDescriptor) (hmem : lt ∈ lts)
    (hd : mapLookup descs lt.resource_id = some d)
    (ht : isTransientType d.resource_type = true) :
    (mapLookup (lts.foldl (aliasStep descs) st).aliases lt.resource_id).isSome := by
  induction lts generalizing st with
  | nil => cases hmem
  | cons x rest ih =>
    rcases List.mem_cons.mp hmem with hx | hx
    · subst hx
      simp only [List.foldl]
      exact aliasFold_preserves_isSome descs rest _ _
        (aliasStep_self_isSome descs st lt d hd ht)
    · exact ih _ hx

/-- Scenario-3 graph: `Main` (vertex 0) writes external `surface` (id 0);
`Dangle` (vertex 1) writes transient `z` (id 1) that nothing reads. -/
def c7Graph : RenderGraphState :=
  let r0 := RenderGraphResources.new
  let r1 := (r0.register_external_resource "surface" (.externalColor none true)).1
  let r2 := (r1.register_transient_resource "z" (.transientColor defaultColorDesc none)).1
  let g0 := { RenderGraphState.new with resources := r2 }
  let g1 := exceptGraphD (addPass g0 ⟨"Main", [], ["out"], [], true⟩ [("out", 0)])
  let g2 := exceptGraphD (addPass g1 ⟨"Dangle", [], ["z"], [], true⟩ [("z", 1)])
  { g2 with resources := g2.resources.set_external_texture 0 101 }

def c7Run : Except RenderGraphError (RenderGraphState × Nat × List PassEvent) :=
  executeModel c7Graph 500

/-- **C7 counterexample** — in scenario 3 the pass `Dangle` *is* culled, yet
compile-and-execute still create a pool slot for `z` and bind a physical
transient texture to it: `compute_resource_lifetimes` runs over the full
execution order (culled passes included) and nothing filters `z` out before
the allocator.  This contradicts the claim that no pool slot and no physical
resource are created for such a resource. -/
theorem claim_C7_counterexample :
    (1 ∈ (exceptStateD c7Run).culled_passes) ∧
    mapLookup ((exceptStateD c7Run).aliasing_info.getD ⟨[], []⟩).aliases 1 = some 0 ∧
    ((exceptStateD c7Run).aliasing_info.getD ⟨[], []⟩).pools.length = 1 ∧
    (mapLookup (exceptStateD c7Run).resources.handles 1).isSome = true ∧
    (exceptStateD c7Run).resources.get_version 1 = 1 := by
  refine ⟨by decide, by decide, by decide, by decide, by decide⟩

/-- **C7 (corrected)** — every transient-typed resource used by *any* pass in
the execution order — culled or not — receives a pool slot: the lifetime
computation and the allocator run over the full order, and culling only skips
`prepare`/`execute`.  In particular `z`, written only by the culled `Dangle`,
does get a pool slot and a physical allocation. -/
theorem claim_C7_amended_culled_transients_get_slots (g : RenderGraphState)
    (order : List Nat) (lt : ResourceLifetime) (d : ResourceDescriptor)
    (hmem : lt ∈ computeResourceLifetimes g order)
    (hd : mapLookup g.resources.descriptors lt.resource_id = some d)
    (ht : isTransientType d.resource_type = true) :
    (mapLookup (computeResourceAliasing g.resources.descriptors
      (computeResourceLifetimes g order)).aliases lt.resource_id).isSome = true := by
  have hperm := sortByFirstUse_perm (computeResourceLifetimes g order)
  exact aliasFold_isSome g.resources.descriptors _ ⟨[], [], []⟩ lt d
    (hperm.mem_iff.mpr hmem) hd ht

/-- Witness for the corrected C7 at the scenario-3 instance: `z` (id 1, used
only by the culled `Dangle`) is in the allocator's alias table. -/
theorem claim_C7_amended_witness :
    (mapLookup (computeResourceAliasing c7Graph.resources.descriptors
      (computeResourceLifetimes c7Graph [0, 1])).aliases 1).isSome = true :=
  claim_C7_amended_culled_transients_get_slots c7Graph [0, 1] ⟨1, 1, 1⟩
    ⟨"z", .transientColor defaultColorDesc none, false⟩
    (by decide) (by decide) (by decide)

/-! ## C8: compile performs no read-before-write validation (it cannot fail) -/

theorem mapLookup_mem {κ α : Type} [DecidableEq κ] (m : List (κ × α)) (k : κ) (v : α)
    (h : mapLookup m k = some v) : (k, v) ∈ m := by
  induction m with
  | nil => cases h
  | cons q rest ih =>
    by_cases hq : q.1 = k
    · simp only [mapLookup, if_pos hq] at h
      obtain rfl : q.2 = v := Option.some_inj.mp h
      have hqe : (k, q.2) = q := by rw [← hq]
      rw [hqe]
      exact List.mem_cons_self _ _
    · simp only [mapLookup, if_neg hq] at h
      exact List.mem_cons_of_mem _ (ih h)

/-- Elements produced by the read-edge folds of `edgeStep` are either old or
edges from a recorded writer to the current node. -/
theorem edgeInner_mem (existing : List (Nat × Nat × Nat)) (idx : Nat)
    (writers : List (Nat × Nat)) (rs : List Nat) (ta : List (Nat × Nat × Nat)) :
    ∀ e ∈ rs.foldl (fun ta r =>
      match mapLookup writers r with
      | some w => if containsEdge existing w idx then ta else ta ++ [(w, idx, r)]
      | none => ta) ta,
    e ∈ ta ∨ ∃ r w, mapLookup writers r = some w ∧ e = (w, idx, r) := by
  induction rs generalizing ta with
  | nil => exact fun e he => Or.inl he
  | cons r rs ih =>
    intro e he
    simp only [List.foldl] at he
    cases hw : mapLookup writers r with
    | none =>
      rw [hw] at he
      exact ih ta e he
    | some w =>
      simp only [hw] at he
      by_cases hc : containsEdge existing w idx
      · rw [if_pos hc] at he
        exact ih ta e he
      · rw [if_neg hc] at he
        rcases ih _ e he with he' | he'
        · rcases List.mem_append.mp he' with he'' | he''
          · exact Or.inl he''
          · exact Or.inr ⟨r, w, hw, List.mem_singleton.mp he''⟩
        · exact Or.inr he'

/-- Elements of the writer-update folds of `edgeStep` are old entries or map
to the current node index. -/
theorem writersUpd_mem (rs : List Nat) (writers : List (Nat × Nat)) (idx : Nat) :
    ∀ p ∈ rs.foldl (fun m r => mapInsert m r idx) writers,
      p ∈ writers ∨ p.2 = idx := by
  induction rs generalizing writers with
  | nil => exact fun p hp => Or.inl hp
  | cons r rs ih =>
    intro p hp
    simp only [List.foldl] at hp
    rcases ih _ p hp with hp' | hp'
    · rcases mem_mapInsert writers r idx p hp' with hp'' | hp''
      · exact Or.inr (by rw [hp''])
      · exact Or.inl hp''
    · exact Or.inr hp'

/-- All edges accumulated by the `build_dependency_edges` sweep point from a
smaller node index to a larger one. -/
theorem edgeFold_forward (existing : List (Nat × Nat × Nat)) (nodes : List GraphNode)
    (n : Nat) (writers : List (Nat × Nat)) (toAdd : List (Nat × Nat × Nat))
    (hw : ∀ p ∈ writers, p.2 < n) (ht : ∀ e ∈ toAdd, e.1 < e.2.1) :
    ∀ e ∈ ((List.enumFrom n nodes).foldl (edgeStep existing) (writers, toAdd)).2,
      e.1 < e.2.1 := by
  induction nodes generalizing n writers toAdd with
  | nil => exact ht
  | cons node rest ih =>
    simp only [List.enumFrom, List.foldl]
    refine ih (n + 1) _ _ ?_ ?_
    · intro p hp
      simp only [edgeStep] at hp
      rcases writersUpd_mem _ _ _ p hp with hp' | hp'
      · rcases writersUpd_mem _ _ _ p hp' with hp'' | hp''
        · exact lt_trans (hw p hp'') (Nat.lt_succ_self n)
        · rw [hp'']; exact Nat.lt_succ_self n
      · rw [hp']; exact Nat.lt_succ_self n
    · intro e he
      simp only [edgeStep] at he
      rcases edgeInner_mem existing n writers _ _ e he with he' | he'
      · rcases edgeInner_mem existing n writers _ _ e he' with he'' | he''
        · exact ht e he''
        · obtain ⟨r, w, hlk, rfl⟩ := he''
          exact hw _ (mapLookup_mem _ _ _ hlk)
      · obtain ⟨r, w, hlk, rfl⟩ := he'
        exact hw _ (mapLookup_mem _ _ _ hlk)

theorem buildDependencyEdges_forward (g : RenderGraphState)
    (hg : ∀ e ∈ g.edges, e.1 < e.2.1) :
    ∀ e ∈ (buildDependencyEdges g).edges, e.1 < e.2.1 := by
  intro e he
  unfold buildDependencyEdges at he
  simp only [] at he
  rcases List.mem_append.mp he with he | he
  · exact hg e he
  · have henum : g.nodes.enum = List.enumFrom 0 g.nodes := rfl
    rw [henum] at he
    exact edgeFold_forward g.edges g.nodes 0 [] [] (by intro p hp; cases hp)
      (by intro e' he'; cases he') e he

theorem find?_range'_eq (p : Nat → Bool) (k : Nat) :
    ∀ (s n : Nat), s ≤ k → k < s + n → (∀ i, s ≤ i → i < k → p i = false) →
    p k = true → (List.range' s n).find? p = some k := by
  intro s n
  induction n generalizing s with
  | zero => intro h1 h2; omega
  | succ n ih =>
    intro hsk hkn hbefore hk
    rw [List.range'_succ]
    by_cases hs : s = k
    · subst hs
      simp [List.find?, hk]
    · have hlt : s < k := lt_of_le_of_ne hsk hs
      have hps : p s = false := hbefore s (le_refl s) hlt
      simp only [List.find?, hps]
      exact ih (s + 1) hlt (by omega) (fun i h1 h2 => hbefore i (by omega) h2) hk

theorem find?_range_eq (p : Nat → Bool) (k n : Nat) (hk : k < n)
    (hbefore : ∀ i < k, p i = false) (hp : p k = true) :
    (List.range n).find? p = some k := by
  rw [List.range_eq_range']
  exact find?_range'_eq p k 0 n (Nat.zero_le k) (by omega)
    (fun i h1 h2 => hbefore i h2) hp

/-- On a graph whose edges all point forward, the Kahn search always picks
the next unprocessed index, so `topoSort` returns `0, 1, …, n-1`. -/
theorem topoSortAux_forward (edges : List (Nat × Nat × Nat))
    (hfwd : ∀ e ∈ edges, e.1 < e.2.1) (n : Nat) :
    ∀ fuel k, fuel + k = n →
      topoSortAux edges n fuel ((List.range k).reverse) = some (List.range n) := by
  intro fuel
  induction fuel with
  | zero =>
    intro k hk
    obtain rfl : k = n := by omega
    simp [topoSortAux]
  | succ fuel ih =>
    intro k hk
    have hklt : k < n := by omega
    have hfind : topoFind n edges ((List.range k).reverse) = some k := by
      unfold topoFind
      have hcontains : ∀ i, ((List.range k).reverse.contains i = true) ↔ i < k := by
        intro i
        simp [List.contains, List.mem_reverse, List.mem_range]
      refine find?_range_eq _ k n (by omega) ?_ ?_
      · intro i hik
        have hci : (List.range k).reverse.contains i = true := (hcontains i).mpr hik
        simp only [hci, Bool.not_true, Bool.false_and]
      · have h1 : (List.range k).reverse.contains k = false := by
          rw [Bool.eq_false_iff]
          intro hcon
          exact absurd ((hcontains k).mp hcon) (lt_irrefl k)
        have h2 : (edges.any (fun e => e.2.1 == k &&
            !(List.range k).reverse.contains e.1)) = false := by
          rw [Bool.eq_false_iff]
          intro hany
          obtain ⟨e, he, hpe⟩ := List.any_eq_true.mp hany
          obtain ⟨het, hnc⟩ : e.2.1 = k ∧ ¬ e.1 ∈ (List.range k).reverse := by
            simpa using hpe
          exact hnc (List.mem_reverse.mpr (List.mem_range.mpr (het ▸ hfwd e he)))
        rw [h1, h2]
        rfl
    simp only [topoSortAux, hfind]
    have hrange : (k :: (List.range k).reverse) = (List.range (k + 1)).reverse := by
      rw [List.range_succ, List.reverse_append]
      rfl
    rw [hrange]
    exact ih (k + 1) (by omega)

theorem topoSort_forward (n : Nat) (edges : List (Nat × Nat × Nat))
    (hfwd : ∀ e ∈ edges, e.1 < e.2.1) :
    topoSort n edges = some (List.range n) := by
  have h := topoSortAux_forward edges hfwd n n 0 (by omega)
  simpa [topoSort] using h

/-- Graph with a non-external resource that is read but never written:
`Reader` (vertex 0) reads transient `zr` (id 1) and writes external `surface`
(id 0). -/
def c8Graph : RenderGraphState :=
  let r0 := RenderGraphResources.new
  let r1 := (r0.register_external_resource "surface" (.externalColor none true)).1
  let r2 := (r1.register_transient_resource "zr" (.transientColor defaultColorDesc none)).1
  let g0 := { RenderGraphState.new with resources := r2 }
  let g1 := exceptGraphD (addPass g0 ⟨"Reader", ["i"], ["o"], [], true⟩
    [("i", 1), ("o", 0)])
  { g1 with resources := g1.resources.set_external_texture 0 101 }

/-- **C8 counterexample** — a graph with a transient resource that is read
but never written compiles *successfully* (no validation error of any kind),
and `execute` even allocates the never-written transient (its lifetime is
derived from its read alone) and runs the pass: nothing fails. -/
theorem claim_C8_counterexample :
    (compile c8Graph).isOk = true ∧
    (executeModel c8Graph 700).isOk = true ∧
    (mapLookup (exceptStateD (executeModel c8Graph 700)).resources.handles 1).isSome
      = true := by
  refine ⟨by decide, by decide, by decide⟩

/-- **C8 (corrected)** — `compile` performs no read-before-write validation;
in fact on any state whose pre-existing edges point forward (in particular
any state built through the API, where edges are only ever produced by the
forward sweep of `build_dependency_edges`), `compile` *always* succeeds, and
the execution order is `0, …, n-1`.  A resource read but never written is
simply treated as a live transient. -/
theorem claim_C8_amended_compile_never_fails (g : RenderGraphState)
    (hg : ∀ e ∈ g.edges, e.1 < e.2.1) :
    ∃ g', compile g = .ok g' ∧ g'.execution_order = List.range g.nodes.length := by
  unfold compile
  have hfwd := buildDependencyEdges_forward g hg
  simp only []
  rw [topoSort_forward _ _ hfwd]
  exact ⟨_, rfl, rfl⟩

/-- Witness for the corrected C8 at the read-never-written instance. -/
theorem claim_C8_amended_witness :
    ∃ g', compile c8Graph = .ok g' ∧ g'.execution_order = List.range 1 :=
  claim_C8_amended_compile_never_fails c8Graph (by decide)

/-! ## C4: store-op inference -/

/-- Pass at execution index `i` writes (or read-writes) `r`. -/
def writesAt (g : RenderGraphState) (order : List Nat) (i r : Nat) : Prop :=
  ∃ ni node, order.get? i = some ni ∧ g.nodes.get? ni = some node ∧
    r ∈ node.writes ++ node.reads_writes

/-- Pass at execution index `i` reads (or read-writes) `r`. -/
def readsAt (g : RenderGraphState) (order : List Nat) (i r : Nat) : Prop :=
  ∃ ni node, order.get? i = some ni ∧ g.nodes.get? ni = some node ∧
    r ∈ node.reads ++ node.reads_writes

theorem enumFrom_get? {α : Type} (l : List α) (n i : Nat) :
    (List.enumFrom n l).get? i = (l.get? i).map (fun a => (n + i, a)) := by
  induction l generalizing n i with
  | nil => simp
  | cons x xs ih =>
    cases i with
    | zero => simp [List.enumFrom]
    | succ i =>
      simp only [List.enumFrom, List.get?]
      rw [ih (n + 1) i]
      have : n + 1 + i = n + (i + 1) := by omega
      rw [this]

theorem enumFrom_drop {α : Type} (l : List α) (n m : Nat) :
    (List.enumFrom n l).drop m = List.enumFrom (n + m) (l.drop m) := by
  induction l generalizing n m with
  | nil => simp
  | cons x xs ih =>
    cases m with
    | zero => simp
    | succ m =>
      simp only [List.enumFrom, List.drop]
      rw [ih (n + 1) m]
      have : n + 1 + m = n + (m + 1) := by omega
      rw [this]

theorem get?_split {α : Type} (l : List α) (i : Nat) (x : α) (h : l.get? i = some x) :
    l = l.take i ++ x :: l.drop (i + 1) := by
  induction l generalizing i with
  | nil => cases h
  | cons y ys ih =>
    cases i with
    | zero =>
      obtain rfl : y = x := by simpa using h
      simp
    | succ i =>
      simp only [List.get?] at h
      simp only [List.take, List.drop, List.cons_append]
      exact congrArg (List.cons y) (ih i h)

theorem get?_mem {α : Type} {l : List α} {i : Nat} {x : α} (h : l.get? i = some x) :
    x ∈ l := by
  rw [get?_split l i x h]
  exact List.mem_append_right _ (List.mem_cons_self _ _)

/-- The inner target fold of the store-op writer loop: the final value for a
registered resource is the op computed at this index if the resource is among
the node's targets, else untouched. -/
theorem storeOpsInner_lookup (descs : List (Nat × ResourceDescriptor))
    (lastRead : List (Nat × Nat)) (i : Nat) (targets : List Nat)
    (m : List (Nat × StoreOp)) (r : Nat) (d : ResourceDescriptor)
    (hd : mapLookup descs r = some d) :
    mapLookup (targets.foldl (fun m r' =>
      match mapLookup descs r' with
      | none => m
      | some d' => mapInsert m r' (storeOpFor lastRead i r' d')) m) r =
    if r ∈ targets then some (storeOpFor lastRead i r d) else mapLookup m r := by
  induction targets generalizing m with
  | nil => simp
  | cons t ts ih =>
    simp only [List.foldl]
    by_cases htr : t = r
    · subst htr
      rw [hd]
      simp only []
      rw [ih (mapInsert m t (storeOpFor lastRead i t d))]
      by_cases hts : t ∈ ts
      · simp [hts]
      · simp [hts, mapLookup_insert]
    · cases hdt : mapLookup descs t with
      | none =>
        rw [ih m]
        by_cases hts : r ∈ ts <;> simp [hts, Ne.symm htr]
      | some dt =>
        simp only []
        rw [ih (mapInsert m t (storeOpFor lastRead i t dt))]
        by_cases hts : r ∈ ts
        · simp [hts]
        · simp [hts, Ne.symm htr, mapLookup_insert_ne _ _ _ _ htr]

/-- Processing pairs none of which write `r` leaves `r`'s store-op entry
unchanged. -/
theorem storeOpsLoop_preserve (descs : List (Nat × ResourceDescriptor))
    (nodes : List GraphNode) (lastRead : List (Nat × Nat)) (r : Nat)
    (d : ResourceDescriptor) (hd : mapLookup descs r = some d)
    (pairs : List (Nat × Nat)) (m : List (Nat × StoreOp))
    (hB : ∀ p ∈ pairs, ∀ nodep, nodes.get? p.2 = some nodep →
      r ∉ nodep.writes ++ nodep.reads_writes) :
    mapLookup (storeOpsLoop descs nodes lastRead m pairs) r = mapLookup m r := by
  induction pairs generalizing m with
  | nil => rfl
  | cons p ps ih =>
    simp only [storeOpsLoop, List.foldl] at ih ⊢
    cases hn : nodes.get? p.2 with
    | none => exact ih m (fun q hq => hB q (List.mem_cons_of_mem _ hq))
    | some node =>
      rw [ih _ (fun q hq => hB q (List.mem_cons_of_mem _ hq))]
      rw [storeOpsInner_lookup descs lastRead p.1 _ m r d hd]
      rw [if_neg (hB p (List.mem_cons_self _ _) node hn)]

/-- After processing a writer of `r` at index `i` followed by pairs that do
not write `r`, the store-op table maps `r` to the op computed at `i` — the
"last writer wins" rule. -/
theorem storeOpsLoop_last_writer (descs : List (Nat × ResourceDescriptor))
    (nodes : List GraphNode) (lastRead : List (Nat × Nat))
    (m0 : List (Nat × StoreOp)) (A B : List (Nat × Nat)) (i ni : Nat)
    (node : GraphNode) (r : Nat) (d : ResourceDescriptor)
    (hn : nodes.get? ni = some node) (hd : mapLookup descs r = some d)
    (hr : r ∈ node.writes ++ node.reads_writes)
    (hB : ∀ p ∈ B, ∀ nodep, nodes.get? p.2 = some nodep →
      r ∉ nodep.writes ++ nodep.reads_writes) :
    mapLookup (storeOpsLoop descs nodes lastRead m0 (A ++ (i, ni) :: B)) r
      = some (storeOpFor lastRead i r d) := by
  unfold storeOpsLoop
  rw [List.foldl_append]
  simp only [List.foldl]
  rw [hn]
  have hpres := storeOpsLoop_preserve descs nodes lastRead r d hd B
  unfold storeOpsLoop at hpres
  rw [hpres _ hB]
  rw [storeOpsInner_lookup descs lastRead i _ _ r d hd, if_pos hr]

/-- The trailing default fill never overwrites an existing entry. -/
theorem storeOpsDefaults_preserve (descs : List (Nat × ResourceDescriptor))
    (m : List (Nat × StoreOp)) (r : Nat) (v : StoreOp)
    (h : mapLookup m r = some v) :
    mapLookup (storeOpsDefaults descs m) r = some v := by
  induction descs generalizing m with
  | nil => exact h
  | cons p ps ih =>
    simp only [storeOpsDefaults, List.foldl] at ih ⊢
    cases hp : mapLookup m p.1 with
    | some w => exact ih m h
    | none =>
      have hne : p.1 ≠ r := by
        intro he
        rw [he, h] at hp
        cases hp
      refine ih _ ?_
      rw [mapLookup_insert_ne _ _ _ _ hne]
      exact h

/-- Lookup shape of the `or_insert` fold used by `last_read`. -/
theorem orInsertFold_lookup (rs : List Nat) (m : List (Nat × Nat)) (v r : Nat) :
    mapLookup (rs.foldl (fun m r' =>
      match mapLookup m r' with
      | some _ => m
      | none => mapInsert m r' v) m) r =
    if (mapLookup m r).isSome then mapLookup m r
    else if r ∈ rs then some v else none := by
  induction rs generalizing m with
  | nil =>
    by_cases h : (mapLookup m r).isSome
    · simp [h]
    · simp only [if_neg h, List.foldl]
      rw [Option.not_isSome_iff_eq_none] at h
      simp [h]
  | cons t ts ih =>
    simp only [List.foldl]
    by_cases htr : t = r
    · subst htr
      cases ht : mapLookup m t with
      | some w =>
        rw [ih m]
        simp [ht]
      | none =>
        simp only []
        rw [ih (mapInsert m t v)]
        simp [mapLookup_insert, ht]
    · cases ht : mapLookup m t with
      | some w =>
        rw [ih m]
        by_cases hrs : r ∈ ts <;> simp [hrs, Ne.symm htr]
      | none =>
        simp only []
        rw [ih (mapInsert m t v)]
        rw [mapLookup_insert_ne _ _ _ _ htr]
        by_cases hrs : r ∈ ts <;> simp [hrs, Ne.symm htr]

theorem computeLastRead_eq_foldr (nodes : List GraphNode) (order : List Nat) :
    computeLastRead nodes order = lastReadFoldr nodes order.enum := by
  unfold computeLastRead lastReadFoldr
  exact List.foldl_reverse _ _ _

theorem lastReadFoldr_some_mem (nodes : List GraphNode) (l : List Nat) (n r j : Nat)
    (h : mapLookup (lastReadFoldr nodes (List.enumFrom n l)) r = some j) :
    n ≤ j ∧ ∃ nj node, (j, nj) ∈ List.enumFrom n l ∧ nodes.get? nj = some node ∧
      r ∈ node.reads ++ node.reads_writes := by
  induction l generalizing n with
  | nil => cases h
  | cons x xs ih =>
    simp only [List.enumFrom, lastReadFoldr, List.foldr] at h
    rw [show (List.foldr (fun p m => lastReadStep nodes m p) [] (List.enumFrom (n + 1) xs))
      = lastReadFoldr nodes (List.enumFrom (n + 1) xs) from rfl] at h
    unfold lastReadStep at h
    cases hn : nodes.get? x with
    | none =>
      rw [hn] at h
      obtain ⟨hle, nj, node, hmem, hnj, hr⟩ := ih (n + 1) h
      exact ⟨by omega, nj, node, List.mem_cons_of_mem _ hmem, hnj, hr⟩
    | some node =>
      rw [hn] at h
      rw [orInsertFold_lookup] at h
      by_cases hs : (mapLookup (lastReadFoldr nodes (List.enumFrom (n + 1) xs)) r).isSome
      · rw [if_pos hs] at h
        obtain ⟨hle, nj, node', hmem, hnj, hr⟩ := ih (n + 1) h
        exact ⟨by omega, nj, node', List.mem_cons_of_mem _ hmem, hnj, hr⟩
      · rw [if_neg hs] at h
        by_cases hr : r ∈ node.reads ++ node.reads_writes
        · rw [if_pos hr] at h
          obtain rfl : n = j := Option.some_inj.mp h
          exact ⟨le_refl n, x, node, List.mem_cons_self _ _, hn, hr⟩
        · rw [if_neg hr] at h
          cases h

theorem lastReadFoldr_ge (nodes : List GraphNode) (l : List Nat) (n r j nj : Nat)
    (node : GraphNode) (hmem : (j, nj) ∈ List.enumFrom n l)
    (hn : nodes.get? nj = some node) (hr : r ∈ node.reads ++ node.reads_writes) :
    ∃ m2, mapLookup (lastReadFoldr nodes (List.enumFrom n l)) r = some m2 ∧
      j ≤ m2 := by
  induction l generalizing n with
  | nil => cases hmem
  | cons x xs ih =>
    simp only [List.enumFrom] at hmem ⊢
    simp only [lastReadFoldr, List.foldr]
    rw [show (List.foldr (fun p m => lastReadStep nodes m p) [] (List.enumFrom (n + 1) xs))
      = lastReadFoldr nodes (List.enumFrom (n + 1) xs) from rfl]
    unfold lastReadStep
    rcases List.mem_cons.mp hmem with hx | hx
    · have hj : j = n := congrArg Prod.fst hx
      have hnjx : nj = x := congrArg Prod.snd hx
      rw [show nodes.get? x = some node from hnjx ▸ hn]
      rw [orInsertFold_lookup]
      cases hs : mapLookup (lastReadFoldr nodes (List.enumFrom (n + 1) xs)) r with
      | some m2 =>
        obtain ⟨hle, -⟩ := lastReadFoldr_some_mem nodes xs (n + 1) r m2 hs
        simp only [hs, Option.isSome_some, if_true]
        exact ⟨m2, rfl, by omega⟩
      | none =>
        simp only [hs, Option.isSome_none, Bool.false_eq_true, if_false]
        rw [if_pos hr]
        exact ⟨n, rfl, le_of_eq hj⟩
    · obtain ⟨m2, hm2, hjm2⟩ := ih (n + 1) hx
      cases hnx : nodes.get? x with
      | none => exact ⟨m2, hm2, hjm2⟩
      | some nodex =>
        rw [orInsertFold_lookup, hm2]
        simp only [Option.isSome_some, if_true]
        exact ⟨m2, rfl, hjm2⟩

/-- `last_read.get(&r).is_some_and(|&l| l > i)` is exactly "some pass at a
later execution index reads (or read-writes) `r`". -/
theorem readLaterB_iff (g : RenderGraphState) (order : List Nat) (i r : Nat) :
    readLaterB (computeLastRead g.nodes order) i r = true ↔
      ∃ j, i < j ∧ readsAt g order j r := by
  rw [computeLastRead_eq_foldr]
  constructor
  · intro h
    unfold readLaterB at h
    cases hl : mapLookup (lastReadFoldr g.nodes order.enum) r with
    | none => rw [hl] at h; cases h
    | some l =>
      rw [hl] at h
      have hil : i < l := by simpa using h
      have henum : order.enum = List.enumFrom 0 order := rfl
      rw [henum] at hl
      obtain ⟨-, nl, node, hmem, hn, hr⟩ := lastReadFoldr_some_mem g.nodes order 0 r l hl
      obtain ⟨-, hlt, hx⟩ := List.mem_enumFrom hmem
      refine ⟨l, hil, nl, node, ?_, hn, hr⟩
      rw [List.get?_eq_getElem?]
      rw [List.getElem?_eq_some]
      exact ⟨by simpa using hlt, by simpa using hx.symm⟩
  · rintro ⟨j, hij, nj, node, hget, hn, hr⟩
    have hjmem : (j, nj) ∈ List.enumFrom 0 order := by
      have := enumFrom_get? order 0 j
      rw [hget] at this
      simp only [Nat.zero_add, Option.map_some] at this
      exact get?_mem this
    obtain ⟨m2, hm2, hjm2⟩ := lastReadFoldr_ge g.nodes order 0 r j nj node hjmem hn hr
    unfold readLaterB
    have henum : order.enum = List.enumFrom 0 order := rfl
    rw [henum, hm2]
    simpa using lt_of_lt_of_le hij hjm2

/-- The store-op table entry of a written resource is the op computed at its
*last* writer's index. -/
theorem storeOps_last_writer (g : RenderGraphState) (order : List Nat) (i r : Nat)
    (d : ResourceDescriptor)
    (hd : mapLookup g.resources.descriptors r = some d)
    (hw : writesAt g order i r)
    (hlast : ∀ j, i < j → ¬ writesAt g order j r) :
    mapLookup (computeStoreOps g order) r
      = some (storeOpFor (computeLastRead g.nodes order) i r d) := by
  obtain ⟨ni, node, hgi, hni, hr⟩ := hw
  have hpe : order.enum.get? i = some (i, ni) := by
    have h0 := enumFrom_get? order 0 i
    rw [show List.enumFrom 0 order = order.enum from rfl] at h0
    rw [hgi] at h0
    simpa using h0
  have hsplit := get?_split order.enum i (i, ni) hpe
  unfold computeStoreOps
  rw [hsplit]
  refine storeOpsDefaults_preserve _ _ _ _ ?_
  refine storeOpsLoop_last_writer _ _ _ _ _ _ i ni node r d hni hd hr ?_
  intro p hp nodep hnp hrp
  obtain ⟨pi, pn⟩ := p
  have hp' : (pi, pn) ∈ List.enumFrom (0 + (i + 1)) (order.drop (i + 1)) := by
    rw [← enumFrom_drop]
    exact hp
  rw [Nat.zero_add] at hp'
  obtain ⟨hle, hlt, hx⟩ := List.mem_enumFrom hp'
  have hbound : pi - (i + 1) < (order.drop (i + 1)).length := by omega
  have hgd : (order.drop (i + 1))[pi - (i + 1)]? = some pn :=
    List.getElem?_eq_some.mpr ⟨hbound, hx.symm⟩
  rw [List.getElem?_drop] at hgd
  have hgp : order.get? pi = some pn := by
    rw [List.get?_eq_getElem?]
    rw [show i + 1 + (pi - (i + 1)) = pi from by omega] at hgd
    exact hgd
  exact hlast pi (by omega) ⟨pn, nodep, hgp, hnp, hrp⟩

/-- **C4 (corrected)** — the store-op rule holds with `i` the index of the
resource's *last* writer in the execution order (later writers overwrite the
single per-resource table entry, so for a multiply-written resource only the
last writer's index decides):  a transient gets `Store` iff some pass at an
index above `i` reads or read-writes it, else `Discard`; an external colour
or depth texture follows the same rule but is forced to `Store` when
`force_store` is set; an external buffer always gets `Store`. -/
theorem claim_C4_amended_store_ops (g : RenderGraphState) (order : List Nat)
    (i r : Nat) (d : ResourceDescriptor)
    (hd : mapLookup g.resources.descriptors r = some d)
    (hw : writesAt g order i r)
    (hlast : ∀ j, i < j → ¬ writesAt g order j r) :
    (d.is_external = false →
      ((∃ j, i < j ∧ readsAt g order j r) →
          mapLookup (computeStoreOps g order) r = some .store) ∧
      (¬ (∃ j, i < j ∧ readsAt g order j r) →
          mapLookup (computeStoreOps g order) r = some .discard)) ∧
    (∀ cc fs, d.is_external = true →
      (d.resource_type = .externalColor cc fs ∨ d.resource_type = .externalDepth cc fs) →
      (fs = true → mapLookup (computeStoreOps g order) r = some .store) ∧
      (fs = false →
        ((∃ j, i < j ∧ readsAt g order j r) →
            mapLookup (computeStoreOps g order) r = some .store) ∧
        (¬ (∃ j, i < j ∧ readsAt g order j r) →
            mapLookup (computeStoreOps g order) r = some .discard))) ∧
    (d.is_external = true → d.resource_type = .externalBuffer →
      mapLookup (computeStoreOps g order) r = some .store) := by
  have hmain := storeOps_last_writer g order i r d hd hw hlast
  refine ⟨?_, ?_, ?_⟩
  · intro hext
    constructor
    · intro hex
      rw [hmain]
      have ht := (readLaterB_iff g order i r).mpr hex
      simp [storeOpFor, hext, ht]
    · intro hnex
      have hfalse : readLaterB (computeLastRead g.nodes order) i r = false := by
        rw [Bool.eq_false_iff]
        intro ht
        exact hnex ((readLaterB_iff g order i r).mp ht)
      rw [hmain]
      simp [storeOpFor, hext, hfalse]
  · intro cc fs hext htype
    constructor
    · intro hfs
      subst hfs
      rw [hmain]
      rcases htype with ht | ht <;> simp [storeOpFor, hext, ht]
    · intro hfs
      subst hfs
      constructor
      · intro hex
        have hrl := (readLaterB_iff g order i r).mpr hex
        rw [hmain]
        rcases htype with ht | ht <;> simp [storeOpFor, hext, ht, hrl]
      · intro hnex
        have hfalse : readLaterB (computeLastRead g.nodes order) i r = false := by
          rw [Bool.eq_false_iff]
          intro ht
          exact hnex ((readLaterB_iff g order i r).mp ht)
        rw [hmain]
        rcases htype with ht | ht <;> simp [storeOpFor, hext, ht, hfalse]
  · intro hext htype
    rw [hmain]
    simp [storeOpFor, hext, htype]

def exceptCompiledD (e : Except RenderGraphError RenderGraphState) : RenderGraphState :=
  match e with
  | .ok g => g
  | .error _ => RenderGraphState.new

/-- Multi-writer graph: transients `r` (0), `x` (1), `y` (2); `P0` writes `r`
and `x`, `P1` reads `x` and `r` and writes `y`, `P2` reads `y` and writes `r`
again.  The dependency chain forces the unique execution order `[0, 1, 2]`. -/
def c4Graph : RenderGraphState :=
  let r0 := RenderGraphResources.new
  let r1 := (r0.register_transient_resource "r" (.transientColor defaultColorDesc none)).1
  let r2 := (r1.register_transient_resource "x" (.transientColor defaultColorDesc none)).1
  let r3 := (r2.register_transient_resource "y" (.transientColor defaultColorDesc none)).1
  let g0 := { RenderGraphState.new with resources := r3 }
  let g1 := exceptGraphD (addPass g0 ⟨"P0", [], ["r", "x"], [], true⟩
    [("r", 0), ("x", 1)])
  let g2 := exceptGraphD (addPass g1 ⟨"P1", ["x", "r"], ["y"], [], true⟩
    [("x", 1), ("r", 0), ("y", 2)])
  exceptGraphD (addPass g2 ⟨"P2", ["y"], ["r"], [], true⟩ [("y", 2), ("r", 0)])

/-- **C4 counterexample** — the claim quantifies over *every* writer index:
here `r` (id 0) is written by `P0` at execution index 0 and read by `P1` at
index 1 (> 0), so the claim demands store-op `Store` for `r`.  But `r` is
written again by `P2` at index 2 with no later read, and the per-resource
table keeps the last writer's answer: the compiled store-op for `r` is
`Discard`, contradicting the claim at writer index 0. -/
theorem claim_C4_counterexample :
    ((exceptCompiledD (compile c4Graph)).nodes.get? 0).map GraphNode.writes
      = some [0, 1] ∧
    ((exceptCompiledD (compile c4Graph)).nodes.get? 1).map GraphNode.reads
      = some [1, 0] ∧
    ((exceptCompiledD (compile c4Graph)).nodes.get? 2).map GraphNode.writes
      = some [0] ∧
    (exceptCompiledD (compile c4Graph)).execution_order = [0, 1, 2] ∧
    mapLookup (exceptCompiledD (compile c4Graph)).store_ops 0 = some .discard ∧
    ¬ mapLookup (exceptCompiledD (compile c4Graph)).store_ops 0 = some .store := by
  refine ⟨by decide, by decide, by decide, by decide, by decide, by decide⟩

/-- Two-pass graph for the C4 witness: `W` writes transient `rw0` (id 0) at
index 0; `R` reads it at index 1. -/
def c4wGraph : RenderGraphState :=
  let r0 := RenderGraphResources.new
  let r1 := (r0.register_transient_resource "rw0" (.transientColor defaultColorDesc none)).1
  let g0 := { RenderGraphState.new with resources := r1 }
  let g1 := exceptGraphD (addPass g0 ⟨"W", [], ["o"], [], true⟩ [("o", 0)])
  exceptGraphD (addPass g1 ⟨"R", ["i"], [], [], true⟩ [("i", 0)])

/-- Witness for the corrected C4: in the two-pass graph the last (only)
writer of `rw0` is at index 0, a read follows at index 1, and the computed
store-op is `Store`. -/
theorem claim_C4_amended_witness :
    mapLookup (computeStoreOps c4wGraph [0, 1]) 0 = some .store := by
  have hw : writesAt c4wGraph [0, 1] 0 0 := by
    refine ⟨0, ⟨"W", [], [0], [], ⟨"W", [], ["o"], [], true⟩⟩, by decide, by decide,
      by decide⟩
  have hlast : ∀ j, 0 < j → ¬ writesAt c4wGraph [0, 1] j 0 := by
    intro j hj
    rintro ⟨ni, node, h1, h2, h3⟩
    match j, hj with
    | 1, _ =>
      have hni : ni = 1 := by simpa using h1.symm
      subst hni
      rw [show c4wGraph.nodes.get? 1
        = some ⟨"R", [0], [], [], ⟨"R", ["i"], [], [], true⟩⟩ from by decide] at h2
      obtain rfl := Option.some_inj.mp h2.symm
      simp at h3
    | (j + 2), _ =>
      have : ([0, 1] : List Nat).get? (j + 2) = none := rfl
      rw [this] at h1
      cases h1
  have hd : mapLookup c4wGraph.resources.descriptors 0
      = some ⟨"rw0", .transientColor defaultColorDesc none, false⟩ := by decide
  refine ((claim_C4_amended_store_ops c4wGraph [0, 1] 0 0
    ⟨"rw0", .transientColor defaultColorDesc none, false⟩ hd hw hlast).1 rfl).1 ?_
  exact ⟨1, by omega, ⟨1, ⟨"R", [0], [], [], ⟨"R", ["i"], [], [], true⟩⟩, by decide,
    by decide, by decide⟩⟩

/-! ## C6: dead-pass elimination -/

/-- Declarative rendering of "resource `r` is required given that the passes
of `suffix` run after the current one": `r` is externally registered, or some
later pass — itself required — reads or read-writes `r`.  A pass is required
when it has no writes and no read-writes (a side-effecting sink) or when one
of its write/read-write targets is required further downstream; this is the
inductive meaning computed by the reverse walk of `compute_dead_passes`. -/
def ResRequired (g : RenderGraphState) : List Nat → Nat → Prop
  | [], r => ∃ d, (r, d) ∈ g.resources.descriptors ∧ d.is_external = true
  | ni :: rest, r =>
    ResRequired g rest r ∨
    (∃ node, g.nodes.get? ni = some node ∧
      ((node.writes = [] ∧ node.reads_writes = []) ∨
        ∃ t ∈ node.writes ++ node.reads_writes, ResRequired g rest t) ∧
      r ∈ node.reads ++ node.reads_writes)

/-- The reverse sweep of `compute_dead_passes` as a recursion over the
suffix of the execution order that remains to be processed. -/
def requiredState (g : RenderGraphState) : List Nat → List Nat × List Nat
  | [] => (externalIds g.resources.descriptors, [])
  | ni :: rest => deadStep g.nodes (requiredState g rest) ni

theorem computeDeadPasses_eq (g : RenderGraphState) (order : List Nat) :
    computeDeadPasses g order =
      order.filter (fun ni => !(requiredState g order).2.contains ni) := by
  unfold computeDeadPasses
  have h : order.reverse.foldl (deadStep g.nodes)
      (externalIds g.resources.descriptors, []) = requiredState g order := by
    rw [List.foldl_reverse]
    induction order with
    | nil => rfl
    | cons x xs ih =>
      simp only [List.foldr, requiredState]
      rw [ih]
  rw [h]

theorem externalIds_mem (descs : List (Nat × ResourceDescriptor)) (r : Nat) :
    r ∈ externalIds descs ↔ ∃ d, (r, d) ∈ descs ∧ d.is_external = true := by
  unfold externalIds
  constructor
  · intro h
    obtain ⟨p, hp, hpr⟩ := List.mem_map.mp h
    obtain ⟨hpd, hpe⟩ := List.mem_filter.mp hp
    exact ⟨p.2, by rw [← hpr]; simpa using hpd, by simpa using hpe⟩
  · rintro ⟨d, hd, he⟩
    exact List.mem_map.mpr ⟨(r, d), List.mem_filter.mpr ⟨hd, by simpa using he⟩, rfl⟩

/-- The boolean requiredness test of `deadStep` agrees with the declarative
"sink or writes a required resource" condition, given that membership in the
accumulated required-resource set agrees with `ResRequired`. -/
theorem deadStep_cond_iff (g : RenderGraphState) (rest : List Nat) (node : GraphNode)
    (hrr : ∀ r, r ∈ (requiredState g rest).1 ↔ ResRequired g rest r) :
    ((node.writes.any ((requiredState g rest).1.contains ·) ||
      node.reads_writes.any ((requiredState g rest).1.contains ·)) ||
      (node.writes.isEmpty && node.reads_writes.isEmpty)) = true ↔
    ((node.writes = [] ∧ node.reads_writes = []) ∨
      ∃ t ∈ node.writes ++ node.reads_writes, ResRequired g rest t) := by
  constructor
  · intro h
    rcases Bool.or_eq_true_iff.mp h with h | h
    · right
      rcases Bool.or_eq_true_iff.mp h with h | h
      · obtain ⟨t, ht, hc⟩ := List.any_eq_true.mp h
        exact ⟨t, List.mem_append_left _ ht, (hrr t).mp (by simpa using hc)⟩
      · obtain ⟨t, ht, hc⟩ := List.any_eq_true.mp h
        exact ⟨t, List.mem_append_right _ ht, (hrr t).mp (by simpa using hc)⟩
    · left
      obtain ⟨h1, h2⟩ := Bool.and_eq_true_iff.mp h
      exact ⟨List.isEmpty_iff.mp h1, List.isEmpty_iff.mp h2⟩
  · intro h
    rcases h with ⟨h1, h2⟩ | ⟨t, ht, hreq⟩
    · refine Bool.or_eq_true_iff.mpr (Or.inr ?_)
      exact Bool.and_eq_true_iff.mpr ⟨List.isEmpty_iff.mpr h1, List.isEmpty_iff.mpr h2⟩
    · refine Bool.or_eq_true_iff.mpr (Or.inl ?_)
      rcases List.mem_append.mp ht with ht | ht
      · refine Bool.or_eq_true_iff.mpr (Or.inl ?_)
        exact List.any_eq_true.mpr ⟨t, ht, by simpa using (hrr t).mpr hreq⟩
      · refine Bool.or_eq_true_iff.mpr (Or.inr ?_)
        exact List.any_eq_true.mpr ⟨t, ht, by simpa using (hrr t).mpr hreq⟩

/-- Membership in the sweep's required-resource accumulator coincides with
the declarative `ResRequired`. -/
theorem requiredState_rr_iff (g : RenderGraphState) :
    ∀ (suffix : List Nat) (r : Nat),
      r ∈ (requiredState g suffix).1 ↔ ResRequired g suffix r := by
  intro suffix
  induction suffix with
  | nil =>
    intro r
    exact externalIds_mem g.resources.descriptors r
  | cons ni rest ih =>
    intro r
    simp only [requiredState, deadStep, ResRequired]
    cases hn : g.nodes.get? ni with
    | none =>
      simp only []
      rw [ih r]
      constructor
      · exact Or.inl
      · rintro (h | ⟨node, hnode, -, -⟩)
        · exact h
        · cases hnode
    | some node =>
      simp only []
      by_cases hc : ((node.writes.any ((requiredState g rest).1.contains ·) ||
          node.reads_writes.any ((requiredState g rest).1.contains ·)) ||
          (node.writes.isEmpty && node.reads_writes.isEmpty)) = true
      · have hcond := (deadStep_cond_iff g rest node ih).mp hc
        rw [if_pos hc]
        constructor
        · intro hmem
          rcases List.mem_append.mp hmem with hmem | hmem
          · rcases List.mem_append.mp hmem with hmem | hmem
            · exact Or.inl ((ih r).mp hmem)
            · exact Or.inr ⟨node, rfl, hcond, List.mem_append_left _ hmem⟩
          · exact Or.inr ⟨node, rfl, hcond, List.mem_append_right _ hmem⟩
        · rintro (h | ⟨node', hnode', -, hmem⟩)
          · exact List.mem_append_left _ (List.mem_append_left _ ((ih r).mpr h))
          · obtain rfl : node = node' := Option.some_inj.mp hnode'
            rcases List.mem_append.mp hmem with hmem | hmem
            · exact List.mem_append_left _ (List.mem_append_right _ hmem)
            · exact List.mem_append_right _ hmem
      · rw [if_neg hc]
        rw [ih r]
        constructor
        · exact Or.inl
        · rintro (h | ⟨node', hnode', hcore, -⟩)
          · exact h
          · obtain rfl : node = node' := Option.some_inj.mp hnode'
            exact absurd ((deadStep_cond_iff g rest node ih).mpr hcore) hc

theorem nat_contains_iff (l : List Nat) (x : Nat) : l.contains x = true ↔ x ∈ l :=
  List.elem_iff

theorem bool_eq_false_of_not {b : Bool} (h : ¬ b = true) : b = false := by
  cases b
  · rfl
  · exact absurd rfl h

/-- `deadStep` changes membership of the required-pass list only at the
processed index. -/
theorem deadStep_rp_mem (nodes : List GraphNode) (acc : List Nat × List Nat)
    (p ni : Nat) (hne : ni ≠ p) :
    ni ∈ (deadStep nodes acc p).2 ↔ ni ∈ acc.2 := by
  unfold deadStep
  cases nodes.get? p with
  | none => exact Iff.rfl
  | some node =>
    simp only []
    split
    · simp [List.mem_append, hne]
    · exact Iff.rfl

theorem deadStep_rp_sub (nodes : List GraphNode) (acc : List Nat × List Nat)
    (p ni : Nat) (h : ni ∈ (deadStep nodes acc p).2) : ni ∈ acc.2 ∨ ni = p := by
  by_cases hne : ni = p
  · exact Or.inr hne
  · exact Or.inl ((deadStep_rp_mem nodes acc p ni hne).mp h)

/-- Every pass the sweep marks required lies in the processed suffix. -/
theorem requiredState_rp_subset (g : RenderGraphState) :
    ∀ (suffix : List Nat) (ni : Nat), ni ∈ (requiredState g suffix).2 → ni ∈ suffix := by
  intro suffix
  induction suffix with
  | nil => intro ni h; cases h
  | cons x rest ih =>
    intro ni h
    simp only [requiredState] at h
    rcases deadStep_rp_sub g.nodes (requiredState g rest) x ni h with h | h
    · exact List.mem_cons_of_mem _ (ih ni h)
    · exact h ▸ List.mem_cons_self _ _

/-- Passes that run before `ni` (a prefix of the order) cannot affect whether
the reverse sweep marks `ni` required. -/
theorem requiredState_rp_earlier (g : RenderGraphState) (ni : Nat) :
    ∀ (pre l : List Nat), ni ∉ pre →
      (ni ∈ (requiredState g (pre ++ l)).2 ↔ ni ∈ (requiredState g l).2) := by
  intro pre
  induction pre with
  | nil => intro l _; exact Iff.rfl
  | cons p pre' ih =>
    intro l hni
    have hne : ni ≠ p := fun h => hni (h ▸ List.mem_cons_self _ _)
    have h1 : ni ∉ pre' := fun h => hni (List.mem_cons_of_mem _ h)
    simp only [List.cons_append, requiredState]
    rw [deadStep_rp_mem g.nodes _ p ni hne]
    exact ih l h1

/-- The sweep marks `ni` required at the moment it is processed exactly when
its vertex exists and is a sink or writes a downstream-required resource. -/
theorem requiredState_rp_head (g : RenderGraphState) (ni : Nat) (rest : List Nat)
    (hni : ni ∉ rest) :
    ni ∈ (requiredState g (ni :: rest)).2 ↔
      ∃ node, g.nodes.get? ni = some node ∧
        ((node.writes = [] ∧ node.reads_writes = []) ∨
          ∃ t ∈ node.writes ++ node.reads_writes, ResRequired g rest t) := by
  simp only [requiredState, deadStep]
  cases hn : g.nodes.get? ni with
  | none =>
    simp only []
    constructor
    · intro h; exact absurd (requiredState_rp_subset g rest ni h) hni
    · rintro ⟨node, hnode, -⟩; cases hnode
  | some node =>
    simp only []
    by_cases hc : ((node.writes.any ((requiredState g rest).1.contains ·) ||
        node.reads_writes.any ((requiredState g rest).1.contains ·)) ||
        (node.writes.isEmpty && node.reads_writes.isEmpty)) = true
    · rw [if_pos hc]
      constructor
      · intro _
        exact ⟨node, rfl,
          (deadStep_cond_iff g rest node (requiredState_rr_iff g rest)).mp hc⟩
      · intro _
        exact List.mem_append_right _ (List.mem_singleton.mpr rfl)
    · rw [if_neg hc]
      constructor
      · intro h; exact absurd (requiredState_rp_subset g rest ni h) hni
      · rintro ⟨node', hnode', hcore⟩
        obtain rfl : node = node' := Option.some_inj.mp hnode'
        exact absurd
          ((deadStep_cond_iff g rest node (requiredState_rr_iff g rest)).mpr hcore) hc

/-- Every event emitted by the invalidation phase is an `invalidate`. -/
theorem invalidateStep_events (g : RenderGraphState) (e : PassEvent)
    (h : e ∈ (invalidateStep g).2) : ∃ x, e = PassEvent.invalidate x := by
  unfold invalidateStep at h
  simp only [] at h
  split at h
  · cases h
  · obtain ⟨x, -, hx⟩ := List.mem_map.mp h
    exact ⟨x, hx.symm⟩

/-- Every event of the prepare phase is a `prepare` of a non-culled pass. -/
theorem prepareEvents_events (g : RenderGraphState) (e : PassEvent)
    (h : e ∈ prepareEvents g) :
    ∃ x, e = PassEvent.prepare x ∧ g.culled_passes.contains x = false := by
  obtain ⟨ni, hni, hf⟩ := List.mem_filterMap.mp h
  by_cases hcul : g.culled_passes.contains ni = true
  · rw [if_pos hcul] at hf
    cases hf
  · rw [if_neg hcul] at hf
    cases hgn : g.nodes.get? ni with
    | none =>
      simp only [hgn] at hf
      cases hf
    | some node =>
      simp only [hgn] at hf
      by_cases hen : node.pass.enabled = true
      · rw [if_pos hen] at hf
        exact ⟨ni, (Option.some_inj.mp hf).symm, bool_eq_false_of_not hcul⟩
      · rw [if_neg hen] at hf
        cases hf

/-- Every event the serial record loop emits is an `exec` of a non-culled
pass. -/
theorem executeSerialAux_events (g : RenderGraphState) :
    ∀ (l : List Nat) (evs : List PassEvent), executeSerialAux g l = .ok evs →
      ∀ e ∈ evs, ∃ x m, e = PassEvent.exec x m ∧
        g.culled_passes.contains x = false := by
  intro l
  induction l with
  | nil =>
    intro evs he e hmem
    simp only [executeSerialAux] at he
    injection he with h1
    subst h1
    cases hmem
  | cons ni rest ih =>
    intro evs he e hmem
    simp only [executeSerialAux] at he
    by_cases hcul : g.culled_passes.contains ni = true
    · rw [if_pos hcul] at he
      exact ih evs he e hmem
    · rw [if_neg hcul] at he
      cases hgn : g.nodes.get? ni with
      | none =>
        simp only [hgn] at he
        exact ih evs he e hmem
      | some node =>
        simp only [hgn] at he
        by_cases hen : (!node.pass.enabled) = true
        · rw [if_pos hen] at he
          exact ih evs he e hmem
        · rw [if_neg hen] at he
          cases hml : mapLookup g.pass_resource_mappings node.name with
          | none =>
            simp only [hml] at he
            cases he
          | some m' =>
            simp only [hml] at he
            cases hrest : executeSerialAux g rest with
            | error err =>
              simp only [hrest] at he
              cases he
            | ok evs' =>
              simp only [hrest] at he
              injection he with h1
              subst h1
              rcases List.mem_cons.mp hmem with hmem | hmem
              · exact ⟨ni, m', hmem, bool_eq_false_of_not hcul⟩
              · exact ih evs' hrest e hmem

/-- A successful `execute` returns the post-invalidation state, and its trace
is the invalidation events, the prepare events of that state and a successful
serial record over that state, in that order. -/
theorem executeModel_ok_shape (g : RenderGraphState) (device : Nat)
    (g' : RenderGraphState) (d : Nat) (ev : List PassEvent)
    (he : executeModel g device = .ok (g', d, ev)) :
    ∃ g0 execs, (invalidateStep g0).1 = g' ∧
      executeSerial g' = .ok execs ∧
      ev = (invalidateStep g0).2 ++ prepareEvents g' ++ execs := by
  unfold executeModel at he
  split at he
  · cases he
  · simp only [] at he
    split at he
    · cases he
    · rename_i execs hse
      simp only [Except.ok.injEq, Prod.mk.injEq] at he
      obtain ⟨h1, h2, h3⟩ := he
      rw [h1] at hse h3
      exact ⟨_, execs, h1, hse, h3.symm⟩

/-- **C6 (confirmed)** — dead-pass elimination: splitting the execution order
as `pre ++ ni :: suf` around a registered pass `ni` (each vertex occurring
once), `ni` is culled exactly when it has at least one write or read-write
target and none of those targets is required downstream — `ResRequired`:
externally registered, or read (transitively) by a required later pass.
Moreover in any successful `execute`, a culled pass receives no `prepare`
and no `execute` callback. -/
theorem claim_C6_dead_pass_elimination (g : RenderGraphState) (device : Nat)
    (pre suf : List Nat) (ni : Nat) (node : GraphNode)
    (hpre : ni ∉ pre) (hsuf : ni ∉ suf)
    (hnode : g.nodes.get? ni = some node) :
    (ni ∈ computeDeadPasses g (pre ++ ni :: suf) ↔
      (¬(node.writes = [] ∧ node.reads_writes = []) ∧
        ∀ t ∈ node.writes ++ node.reads_writes, ¬ ResRequired g suf t)) ∧
    (∀ g' d ev, executeModel g device = .ok (g', d, ev) →
      ∀ nj ∈ g'.culled_passes,
        PassEvent.prepare nj ∉ ev ∧ ∀ m, PassEvent.exec nj m ∉ ev) := by
  have hchain : ni ∈ (requiredState g (pre ++ ni :: suf)).2 ↔
      ((node.writes = [] ∧ node.reads_writes = []) ∨
        ∃ t ∈ node.writes ++ node.reads_writes, ResRequired g suf t) := by
    rw [requiredState_rp_earlier g ni pre (ni :: suf) hpre,
        requiredState_rp_head g ni suf hsuf]
    constructor
    · rintro ⟨node', hnode', hc⟩
      rw [hnode] at hnode'
      obtain rfl : node = node' := Option.some_inj.mp hnode'
      exact hc
    · intro hc
      exact ⟨node, hnode, hc⟩
  constructor
  · rw [computeDeadPasses_eq]
    constructor
    · intro h
      obtain ⟨hmem0, hfil⟩ := List.mem_filter.mp h
      simp at hfil
      have hnc : ¬ ((node.writes = [] ∧ node.reads_writes = []) ∨
          ∃ t ∈ node.writes ++ node.reads_writes, ResRequired g suf t) :=
        fun hc => hfil (hchain.mpr hc)
      exact ⟨fun hb => hnc (Or.inl hb), fun t ht hr => hnc (Or.inr ⟨t, ht, hr⟩)⟩
    · rintro ⟨h1, h2⟩
      refine List.mem_filter.mpr
        ⟨List.mem_append_right _ (List.mem_cons_self _ _), ?_⟩
      have h3 : ni ∉ (requiredState g (pre ++ ni :: suf)).2 := by
        intro hm
        rcases hchain.mp hm with hb | ⟨t, ht, hr⟩
        · exact h1 hb
        · exact h2 t ht hr
      simpa using h3
  · intro g' d ev he nj hnj
    obtain ⟨g0, execs, hg0, hse, hev⟩ := executeModel_ok_shape g device g' d ev he
    subst hev
    have hcon := (nat_contains_iff _ _).mpr hnj
    constructor
    · intro hmem
      rcases List.mem_append.mp hmem with hmem | hmem
      · rcases List.mem_append.mp hmem with hmem | hmem
        · obtain ⟨x, hx⟩ := invalidateStep_events g0 _ hmem
          cases hx
        · obtain ⟨x, hx, hcf⟩ := prepareEvents_events g' _ hmem
          injection hx with hnx
          rw [hnx, hcf] at hcon
          cases hcon
      · obtain ⟨x, m', hx, hcf⟩ := executeSerialAux_events g' g'.execution_order execs hse _ hmem
        cases hx
    · intro m hmem
      rcases List.mem_append.mp hmem with hmem | hmem
      · rcases List.mem_append.mp hmem with hmem | hmem
        · obtain ⟨x, hx⟩ := invalidateStep_events g0 _ hmem
          cases hx
        · obtain ⟨x, hx, hcf⟩ := prepareEvents_events g' _ hmem
          cases hx
      · obtain ⟨x, m', hx, hcf⟩ := executeSerialAux_events g' g'.execution_order execs hse _ hmem
        injection hx with hnx hmx
        rw [hnx, hcf] at hcon
        cases hcon

/-- Witness for C6 at scenario 3: `Dangle` (vertex 1, writing only the
transient `z` that nothing reads) is culled, and in the recorded execute a
culled pass receives neither `prepare` nor `execute` callbacks. -/
theorem claim_C6_witness :
    1 ∈ computeDeadPasses c7Graph ([0] ++ 1 :: []) ∧
    (∀ g' d ev, executeModel c7Graph 500 = .ok (g', d, ev) →
      ∀ nj ∈ g'.culled_passes,
        PassEvent.prepare nj ∉ ev ∧ ∀ m, PassEvent.exec nj m ∉ ev) := by
  have h := claim_C6_dead_pass_elimination c7Graph 500 [0] [] 1
    ⟨"Dangle", [], [1], [], ⟨"Dangle", [], ["z"], [], true⟩⟩
    (by decide) (by decide) (by decide)
  refine ⟨h.1.mpr ⟨by decide, ?_⟩, h.2⟩
  intro t ht hr
  have ht1 : t = 1 := by simpa using ht
  subst ht1
  exact absurd ((externalIds_mem c7Graph.resources.descriptors 1).mpr hr) (by decide)

/-! ## C9: duplicate pass names -/

/-- Every `exec` event of the serial loop carries exactly the slot-mapping
table stored in `pass_resource_mappings` under the executed node's *name*. -/
theorem executeSerialAux_exec_mapping (g : RenderGraphState) :
    ∀ (l : List Nat) (evs : List PassEvent), executeSerialAux g l = .ok evs →
      ∀ i m, PassEvent.exec i m ∈ evs →
        ∃ nd, g.nodes.get? i = some nd ∧
          mapLookup g.pass_resource_mappings nd.name = some m := by
  intro l
  induction l with
  | nil =>
    intro evs he i m hmem
    simp only [executeSerialAux] at he
    injection he with h1
    subst h1
    cases hmem
  | cons ni rest ih =>
    intro evs he i m hmem
    simp only [executeSerialAux] at he
    by_cases hcul : g.culled_passes.contains ni = true
    · rw [if_pos hcul] at he
      exact ih evs he i m hmem
    · rw [if_neg hcul] at he
      cases hgn : g.nodes.get? ni with
      | none =>
        simp only [hgn] at he
        exact ih evs he i m hmem
      | some node =>
        simp only [hgn] at he
        by_cases hen : (!node.pass.enabled) = true
        · rw [if_pos hen] at he
          exact ih evs he i m hmem
        · rw [if_neg hen] at he
          cases hml : mapLookup g.pass_resource_mappings node.name with
          | none =>
            simp only [hml] at he
            cases he
          | some m' =>
            simp only [hml] at he
            cases hrest : executeSerialAux g rest with
            | error err =>
              simp only [hrest] at he
              cases he
            | ok evs' =>
              simp only [hrest] at he
              injection he with h1
              subst h1
              rcases List.mem_cons.mp hmem with hmem | hmem
              · injection hmem with hni hmm
                rw [← hni] at hgn
                rw [← hmm] at hml
                exact ⟨node, hgn, hml⟩
              · exact ih evs' hrest i m hmem

/-- If a name's entry in `pass_resource_mappings` is `M`, every executed
vertex bearing that name receives exactly `M` as its slot table. -/
theorem executeSerial_mapping_unique (g : RenderGraphState) (nm : String)
    (M : List (String × Nat))
    (hM : mapLookup g.pass_resource_mappings nm = some M) :
    ∀ evs i nd m, executeSerial g = .ok evs → PassEvent.exec i m ∈ evs →
      g.nodes.get? i = some nd → nd.name = nm → m = M := by
  intro evs i nd m hse hmem hnd hname
  obtain ⟨nd', hnd', hml⟩ :=
    executeSerialAux_exec_mapping g g.execution_order evs hse i m hmem
  rw [hnd] at hnd'
  obtain rfl : nd = nd' := Option.some_inj.mp hnd'
  rw [hname, hM] at hml
  exact (Option.some_inj.mp hml).symm

/-- **C9 (confirmed)** — `add_pass` never checks for duplicate names: adding a
pass whose name equals an already-registered node's name succeeds, appends a
second vertex (the old one untouched at its index, the new one at index
`nodes.length` carrying the new pass), and *overwrites* the shared
`pass_resource_mappings` entry for that name.  After `compile` (which on
API-built, forward-edge states always succeeds with order `0, …, n-1`) both
vertices are in the execution order, and during `execute_serial` every
executed vertex with that name — the old one included — resolves its slots
through the most recently inserted table. -/
theorem claim_C9_duplicate_name_add_pass (g : RenderGraphState) (pass : PassSpec)
    (sm : List (String × Nat)) (g2 : RenderGraphState) (idx iOld : Nat)
    (nodeOld : GraphNode)
    (hadd : addPass g pass sm = .ok (g2, idx))
    (hold : g.nodes.get? iOld = some nodeOld)
    (hdup : nodeOld.name = pass.name)
    (hg : ∀ e ∈ g2.edges, e.1 < e.2.1) :
    idx = g.nodes.length ∧
    g2.nodes.get? iOld = some nodeOld ∧
    (∃ node2, g2.nodes.get? idx = some node2 ∧ node2.name = pass.name ∧
      node2.pass = pass) ∧
    mapLookup g2.pass_resource_mappings pass.name =
      some (sm.foldl (fun m p => mapInsert m p.1 p.2) []) ∧
    (∃ g3, compile g2 = .ok g3 ∧
      iOld ∈ g3.execution_order ∧ idx ∈ g3.execution_order ∧
      g3.nodes = g2.nodes ∧
      g3.pass_resource_mappings = g2.pass_resource_mappings ∧
      ∀ evs i nd m, executeSerial g3 = .ok evs → PassEvent.exec i m ∈ evs →
        g3.nodes.get? i = some nd → nd.name = pass.name →
        m = sm.foldl (fun mm p => mapInsert mm p.1 p.2) []) := by
  have hlt : iOld < g.nodes.length := get?_some_lt_length hold
  unfold addPass at hadd
  simp only [] at hadd
  cases h1 : resolveSlots pass.name
      (sm.foldl (fun m p => mapInsert m p.1 p.2) []) pass.readSlots with
  | error e => simp only [h1] at hadd; cases hadd
  | ok reads =>
  simp only [h1] at hadd
  cases h2 : resolveSlots pass.name
      (sm.foldl (fun m p => mapInsert m p.1 p.2) []) pass.writeSlots with
  | error e => simp only [h2] at hadd; cases hadd
  | ok writes =>
  simp only [h2] at hadd
  cases h3 : resolveSlots pass.name
      (sm.foldl (fun m p => mapInsert m p.1 p.2) []) pass.readWriteSlots with
  | error e => simp only [h3] at hadd; cases hadd
  | ok reads_writes =>
  simp only [h3] at hadd
  simp only [Except.ok.injEq, Prod.mk.injEq] at hadd
  obtain ⟨hg2, hidx⟩ := hadd
  subst hg2
  subst hidx
  refine ⟨rfl, ?_, ?_, ?_, ?_⟩
  · show (g.nodes ++ [(⟨pass.name, reads, writes, reads_writes, pass⟩ : GraphNode)]).get? iOld
      = some nodeOld
    rw [List.get?_append hlt]
    exact hold
  · exact ⟨⟨pass.name, reads, writes, reads_writes, pass⟩,
      List.get?_concat_length _ _, rfl, rfl⟩
  · exact mapLookup_insert _ _ _
  · have hfwd := buildDependencyEdges_forward _ hg
    unfold compile
    simp only []
    rw [topoSort_forward _ _ hfwd]
    refine ⟨_, rfl, ?_, ?_, rfl, rfl, ?_⟩
    · show iOld ∈ List.range
        (g.nodes ++ [(⟨pass.name, reads, writes, reads_writes, pass⟩ : GraphNode)]).length
      exact List.mem_range.mpr (by simp; omega)
    · show g.nodes.length ∈ List.range
        (g.nodes ++ [(⟨pass.name, reads, writes, reads_writes, pass⟩ : GraphNode)]).length
      exact List.mem_range.mpr (by simp)
    · exact executeSerial_mapping_unique _ pass.name _ (mapLookup_insert _ _ _)

/-- Duplicate-name scenario: one external `surface` (id 0) and a pass `Dup`
writing it; a second pass also named `Dup` is then added. -/
def c9Graph : RenderGraphState :=
  let r0 := RenderGraphResources.new
  let r1 := (r0.register_external_resource "surface" (.externalColor none true)).1
  let g0 := { RenderGraphState.new with resources := r1 }
  exceptGraphD (addPass g0 ⟨"Dup", [], ["out"], [], true⟩ [("out", 0)])

def c9g2 : RenderGraphState :=
  exceptGraphD (addPass c9Graph ⟨"Dup", [], ["o2"], [], true⟩ [("o2", 0)])

/-- Witness for C9: the second `Dup` is accepted at index 1, the first node
survives at index 0, the shared mapping entry for "Dup" is the new table, and
after compiling both vertices are ordered and resolve through it. -/
theorem claim_C9_witness :
    (1 : Nat) = c9Graph.nodes.length ∧
    c9g2.nodes.get? 0 = some ⟨"Dup", [], [0], [], ⟨"Dup", [], ["out"], [], true⟩⟩ ∧
    (∃ node2, c9g2.nodes.get? 1 = some node2 ∧
      node2.name = (⟨"Dup", [], ["o2"], [], true⟩ : PassSpec).name ∧
      node2.pass = ⟨"Dup", [], ["o2"], [], true⟩) ∧
    mapLookup c9g2.pass_resource_mappings (⟨"Dup", [], ["o2"], [], true⟩ : PassSpec).name =
      some ([("o2", 0)].foldl (fun m p => mapInsert m p.1 p.2) []) ∧
    (∃ g3, compile c9g2 = .ok g3 ∧
      0 ∈ g3.execution_order ∧ 1 ∈ g3.execution_order ∧
      g3.nodes = c9g2.nodes ∧
      g3.pass_resource_mappings = c9g2.pass_resource_mappings ∧
      ∀ evs i nd m, executeSerial g3 = .ok evs → PassEvent.exec i m ∈ evs →
        g3.nodes.get? i = some nd →
        nd.name = (⟨"Dup", [], ["o2"], [], true⟩ : PassSpec).name →
        m = [("o2", 0)].foldl (fun mm p => mapInsert mm p.1 p.2) []) :=
  claim_C9_duplicate_name_add_pass c9Graph ⟨"Dup", [], ["o2"], [], true⟩ [("o2", 0)]
    c9g2 1 0 ⟨"Dup", [], [0], [], ⟨"Dup", [], ["out"], [], true⟩⟩
    rfl (by decide) (by decide) (by decide)
